import Mathlib

/-!
# go-fd: the `finder` package (src/finder/find.go)

A shallow embedding of the concurrent directory walk of `find.go` and the
properties of its specification.

Modelling choices.

* The file system is a finite tree of `Node`s that does not change during a
  walk.  A path handed to `worker` is kept as the list of directory names
  below the search root (`dirPath`), so `path.Join(dirPath, entry.Name())` is
  `dirPath ++ [entry.Name]`; a worker carries the node its path resolves to.
  Entries that are not directories (symbolic links among them) are files.
* `isHidden` asks the operating system for an attribute of a path: the
  answer is the `hidden` field of a directory node.
* `regexp.Compile` and `regexp.MatchString` belong to the Go library: they
  are a parameter (`RegexEngine`).  `strings.Contains` is modelled on the
  characters of the two strings.
* `printErr` ends the process (`os.Exit(1)`): the state records the error and
  no thread takes another step.
* `printPath` is recorded as the call the worker makes (directory, entry,
  colour); the rendering of the line (absolute or relative) is not modelled.
* Goroutines are threads of an interleaving semantics: `step c s i` lets
  thread `i` take its next step (thread 0 is the caller of `Find`, thread
  `k + 1` the `k`-th goroutine started with `go f.worker(..)`).  One iteration
  of the `for` loop of `worker` is one step.  The properties are proved for
  every interleaving (`Reachable`); `run` is one scheduler, used to compute
  examples and to show that a run comes to its end.
* `nbFiles` is a `uint32`: additions are taken modulo `2 ^ 32`.  The counter of
  the `WaitGroup` is a natural number.  `elapsed` and the clock are not
  modelled.
-/

namespace Finder

/-! ## Data model -/

/-- Modelled from the spec: the `Options` type is declared outside the files
under `src/`; these are the fields `find.go` reads (the spec names them
`matchFiles`, `matchDirs`, `useRegex`, `absolutePaths`, `showStats`). -/
structure Options where
  File : Bool
  Dir : Bool
  Regex : Bool
  Absolute : Bool
  Bench : Bool
  deriving DecidableEq, Repr

/-- What `find.go` reads of an `fs.DirEntry`: `Name()` and `IsDir()`. -/
structure DirEntry where
  Name : String
  IsDir : Bool
  deriving DecidableEq, Repr

/-- The messages `printErr` is called with, and the panic of a `WaitGroup`
whose counter would become negative. -/
inductive Fatal where
  | needsLocation                       -- "Needs location to search"
  | needsValue                          -- "Needs value to search"
  | needsKind                           -- "Needs to search files [-f], folders [-d] or both"
  | invalidPath                         -- "Invalid path"
  | cannotAccess (dirPath : List String) -- "cannot access to " + abs
  | invalidRegex (searched : String)    -- "Invalid regex : " + f.searched
  | regexError                          -- "Regex error"
  | negativeWaitGroup                   -- panic of wg.Done() at counter 0
  deriving DecidableEq, Repr

/-- The fields of `type find struct` (`elapsed` is not modelled; `wg` is the
counter of the `sync.WaitGroup`). -/
structure find where
  path : String
  searched : String
  nbFiles : Nat
  opts : Options
  wg : Nat
  deriving DecidableEq, Repr

/-- The regular-expression library: `compile pattern` is `none` when
`regexp.Compile` returns an error, and otherwise the test
`(*Regexp).MatchString` of the compiled expression. -/
structure RegexEngine where
  compile : String → Option (String → Bool)

/-- The library function `regexp.MatchString(pattern, s)`: it compiles the
pattern, returns the compile error if there is one, and otherwise the result of
matching. -/
def RegexEngine.matchString (re : RegexEngine) (pattern s : String) : Except Unit Bool :=
  match re.compile pattern with
  | none => .error ()
  | some m => .ok (m s)

/-- Whether `sub` occurs in `s` as a block of consecutive characters. -/
def containsChars : List Char → List Char → Bool
  | [], sub => sub.isEmpty
  | c :: cs, sub => sub.isPrefixOf (c :: cs) || containsChars cs sub

/-- The library function `strings.Contains(s, substr)`. -/
def stringsContains (s substr : String) : Bool :=
  containsChars s.data substr.data

/-- An object of the file system: a file (anything `IsDir()` is false for) or a
directory with its hidden attribute, whether `os.Open` and `ReadDir` succeed on
it, and its entries. -/
inductive Node where
  | file (name : String)
  | dir (name : String) (hidden : Bool) (readable : Bool) (children : List Node)

/-- The `fs.DirEntry` that a listing of the parent gives for a node. -/
def Node.entry : Node → DirEntry
  | .file name => ⟨name, false⟩
  | .dir name _ _ _ => ⟨name, true⟩

/-- The source's `isHidden(filepath.Join(dirPath, entry.Name()))`, for the node
the path names. -/
def isHidden : Node → Bool
  | .file _ => false
  | .dir _ hidden _ _ => hidden

/-- The source's `os.Open(dirPath)` followed by `file.ReadDir(-1)`: `none` when
either returns an error (a file is opened but cannot be listed). -/
def readDir : Node → Option (List Node)
  | .file _ => none
  | .dir _ _ readable children => if readable then some children else none

/-- The two colours `worker` passes to `printPath`. -/
inductive Color where
  | FgBlue
  | FgGreen
  deriving DecidableEq, Repr

/-- One call of `printPath(dirPath, entry, c)`. -/
structure Report where
  dirPath : List String
  entry : DirEntry
  color : Color
  deriving DecidableEq, Repr

/-- Where a call of `worker` stands: before `os.Open` (`start`), in the `for`
loop with the entries still to come (`loop`), or returned (`done`). -/
inductive Phase where
  | start (d : Node)
  | loop (rest : List Node)
  | done

/-- A call of `worker(dirPath)`. -/
structure Worker where
  dirPath : List String
  phase : Phase

/-- Where the caller of `Find` stands. -/
inductive MainPhase where
  | checkReg               -- about to run f.checkRegIfNeed()
  | lstat                  -- in launch, about to run os.Lstat(f.path)
  | working (w : Worker)   -- in f.worker(f.path)
  | waiting                -- at f.wg.Wait()
  | returned               -- Find has returned (details has run)

/-- The state of a run of `Find`: the finder, the caller, the goroutines
started so far, the calls of `printPath` so far, the error of `printErr` if it
was called, and the number `details` printed. -/
structure State where
  f : find
  main : MainPhase
  tasks : List Worker
  out : List Report
  fatal : Option Fatal
  summary : Option Nat

/-- The environment of a run: the regular-expression library and the node
`f.path` names (`none` when `os.Lstat(f.path)` returns an error). -/
structure Ctx where
  re : RegexEngine
  root : Option Node

/-! ## Operations of `find.go` -/

/-- The source's `checkParamsAndOpts`. -/
def checkParamsAndOpts (path searched : String) (opts : Options) : Except Fatal Unit :=
  if path = "" then .error .needsLocation
  else if searched = "" then .error .needsValue
  else if !opts.Dir && !opts.File then .error .needsKind
  else .ok ()

/-- The source's `New`. -/
def New (path searched : String) (options : Options) : Except Fatal find :=
  match checkParamsAndOpts path searched options with
  | .error e => .error e
  | .ok _ => .ok { path := path, searched := searched, nbFiles := 0, opts := options, wg := 0 }

/-- The source's `checkRegIfNeed`. -/
def checkRegIfNeed (re : RegexEngine) (f : find) : Except Fatal Unit :=
  if f.opts.Regex then
    match re.compile f.searched with
    | none => .error (.invalidRegex f.searched)
    | some _ => .ok ()
  else .ok ()

/-- The source's `checkName`. -/
def checkName (re : RegexEngine) (f : find) (entry : DirEntry) : Except Fatal Bool :=
  if f.opts.Regex then
    match re.matchString f.searched entry.Name with
    | .error _ => .error .regexError
    | .ok m => .ok m
  else if stringsContains entry.Name f.searched then .ok true
  else .ok false

/-- The source's `correspond`. -/
def correspond (re : RegexEngine) (f : find) (entry : DirEntry) : Except Fatal Bool :=
  if f.opts.File && f.opts.Dir then checkName re f entry
  else if f.opts.File && !entry.IsDir then checkName re f entry
  else if f.opts.Dir && entry.IsDir then checkName re f entry
  else .ok false

/-- The source's `printErr`: the process exits. -/
def printErr (msg : Fatal) (s : State) : State :=
  { s with fatal := some msg }

/-- The source's `printPath`, as the call made. -/
def printPath (dirPath : List String) (entry : DirEntry) (c : Color) (s : State) : State :=
  { s with out := s.out ++ [⟨dirPath, entry, c⟩] }

/-- The library call `f.wg.Add(1)`. -/
def wgAdd (s : State) : State :=
  { s with f := { s.f with wg := s.f.wg + 1 } }

/-- The library call `f.wg.Done()`. -/
def wgDone (s : State) : State :=
  if s.f.wg = 0 then printErr .negativeWaitGroup s
  else { s with f := { s.f with wg := s.f.wg - 1 } }

/-- The library call `atomic.AddUint32(&f.nbFiles, 1)`. -/
def addNbFiles (s : State) : State :=
  { s with f := { s.f with nbFiles := (s.f.nbFiles + 1) % 2 ^ 32 } }

/-- The statement `go f.worker(path.Join(dirPath, entry.Name()))`. -/
def spawn (dirPath : List String) (d : Node) (s : State) : State :=
  { s with tasks := s.tasks ++ [⟨dirPath ++ [d.entry.Name], .start d⟩] }

/-- One step of a call of the source's `worker`: opening and listing the
directory, one iteration of the loop, or the return with the deferred
`wg.Done()` (a call that panics does not return). -/
def workerStep (c : Ctx) (w : Worker) (s : State) : Worker × State :=
  match w.phase with
  | .start d =>
    match readDir d with
    | none => (w, printErr (.cannotAccess w.dirPath) s)
    | some dirs => ({ w with phase := .loop dirs }, s)
  | .loop [] =>
    if s.f.wg = 0 then (w, wgDone s) else ({ w with phase := .done }, wgDone s)
  | .loop (node :: rest) =>
    let s1 := addNbFiles s
    if node.entry.IsDir && !isHidden node then
      match correspond c.re s.f node.entry with
      | .error e => (w, printErr e s1)
      | .ok b =>
        let s2 := if b then printPath w.dirPath node.entry .FgBlue s1 else s1
        ({ w with phase := .loop rest }, spawn w.dirPath node (wgAdd s2))
    else
      match correspond c.re s.f node.entry with
      | .error e => (w, printErr e s1)
      | .ok b =>
        ({ w with phase := .loop rest },
          if b then printPath w.dirPath node.entry .FgGreen s1 else s1)
  | .done => (w, s)

/-- Whether a call of `worker` has returned. -/
def Phase.isDone : Phase → Bool
  | .done => true
  | _ => false

/-- The source's `details`, run when `Find` returns. -/
def details (s : State) : State :=
  { s with summary := if s.f.opts.Bench then some s.f.nbFiles else none }

/-- One step of the caller of `Find`: `checkRegIfNeed`, then in `launch`
`os.Lstat` with `wg.Add(1)`, the steps of `f.worker(f.path)`, and `wg.Wait()`,
which lets the caller go on only at counter 0; then `Find` returns and the
deferred `details` runs. -/
def stepMain (c : Ctx) (s : State) : Option State :=
  match s.main with
  | .checkReg =>
    match checkRegIfNeed c.re s.f with
    | .error e => some (printErr e s)
    | .ok _ => some { s with main := .lstat }
  | .lstat =>
    match c.root with
    | none => some (printErr .invalidPath s)
    | some d => some { wgAdd s with main := .working ⟨[], .start d⟩ }
  | .working w =>
    let r := workerStep c w s
    if r.1.phase.isDone then some { r.2 with main := .waiting }
    else some { r.2 with main := .working r.1 }
  | .waiting =>
    if s.f.wg = 0 then some { details s with main := .returned } else none
  | .returned => none

/-- One step of the `k`-th goroutine. -/
def stepTask (c : Ctx) (s : State) (k : Nat) : Option State :=
  match s.tasks[k]? with
  | none => none
  | some w =>
    if w.phase.isDone then none
    else
      let r := workerStep c w s
      some { r.2 with tasks := r.2.tasks.set k r.1 }

/-- One step of thread `i` (0 is the caller of `Find`, `k + 1` the `k`-th
goroutine); `none` when the thread cannot move or the process has exited. -/
def step (c : Ctx) (s : State) (i : Nat) : Option State :=
  if s.fatal.isSome then none
  else
    match i with
    | 0 => stepMain c s
    | k + 1 => stepTask c s k

/-- The state in which `Find` is called on the finder `f`. -/
def init (f : find) : State :=
  { f := f, main := .checkReg, tasks := [], out := [], fatal := none, summary := none }

/-- The first thread that can move, moved. -/
def next (c : Ctx) (s : State) : Option State :=
  (List.range (s.tasks.length + 1)).findSome? (step c s)

/-- A run of at most `fuel` steps under the scheduler `next`. -/
def run (c : Ctx) : Nat → State → State
  | 0, s => s
  | fuel + 1, s =>
    match next c s with
    | none => s
    | some s' => run c fuel s'

/-- A small regular-expression library for examples: a pattern is an optional
leading `^` followed by literal characters, `.` (any character) and `\`
followed by a character that is not a letter or a digit (that character); any
other pattern is rejected. -/
def sampleItems : List Char → Option (List (Option Char))
  | [] => some []
  | '\\' :: c :: cs =>
    if c.isAlphanum then none else (sampleItems cs).map (fun r => some c :: r)
  | '.' :: cs => (sampleItems cs).map (fun r => none :: r)
  | c :: cs =>
    if c ∈ ['\\', '^', '$', '*', '+', '?', '(', ')', '[', ']', '{', '}', '|'] then none
    else (sampleItems cs).map (fun r => some c :: r)

/-- Whether the items match a beginning of the characters. -/
def sampleMatchHere : List (Option Char) → List Char → Bool
  | [], _ => true
  | _ :: _, [] => false
  | none :: is, _ :: cs => sampleMatchHere is cs
  | some a :: is, c :: cs => a == c && sampleMatchHere is cs

/-- Whether the items match somewhere in the characters. -/
def sampleMatchAny (is : List (Option Char)) : List Char → Bool
  | [] => sampleMatchHere is []
  | c :: cs => sampleMatchHere is (c :: cs) || sampleMatchAny is cs

/-- The example library. -/
def sampleEngine : RegexEngine where
  compile pattern :=
    match pattern.data with
    | '^' :: cs => (sampleItems cs).map (fun is s => sampleMatchHere is s.data)
    | cs => (sampleItems cs).map (fun is s => sampleMatchAny is s.data)

/-! ## The work a run has still to do -/

/-- Whether the loop of `worker` starts a goroutine on the entry: the test
`entry.IsDir() && !isHidden(..)`. -/
def descends (n : Node) : Bool :=
  n.entry.IsDir && !isHidden n

/-- What a call of `worker` does, one item a step: it opens and lists its
directory (`opened`) or fails to (`blocked`), visits an entry (`visit`), and
returns (`finished`). -/
inductive Event where
  | opened
  | blocked
  | visit (dirPath : List String) (node : Node)
  | finished

/-- Whether the event is the visit of an entry. -/
def Event.isVisit : Event → Bool
  | .visit _ _ => true
  | _ => false

/-- Whether the event is a directory that cannot be opened or listed. -/
def Event.isBlocked : Event → Bool
  | .blocked => true
  | _ => false

mutual
/-- The events of the call `worker(dirPath)` on a node and of every goroutine
started from it. -/
def dirEvents (dirPath : List String) : Node → List Event
  | .file _ => [.blocked]
  | .dir _ _ readable children =>
    if readable then .opened :: listEvents dirPath children else [.blocked]
/-- The events of the loop of `worker(dirPath)` over the entries `nodes`, and of
every goroutine started from it. -/
def listEvents (dirPath : List String) : List Node → List Event
  | [] => [.finished]
  | node :: rest =>
    .visit dirPath node ::
      ((if descends node then dirEvents (dirPath ++ [node.entry.Name]) node else []) ++
        listEvents dirPath rest)
end

/-- The events a call of `worker` has still to produce. -/
def Worker.pending (w : Worker) : List Event :=
  match w.phase with
  | .start d => dirEvents w.dirPath d
  | .loop rest => listEvents w.dirPath rest
  | .done => []

/-- The events of a walk from the search root; a root that `os.Lstat` fails on
counts as a directory that cannot be opened. -/
def rootEvents : Option Node → List Event
  | none => [.blocked]
  | some d => dirEvents [] d

/-- The events of the call `f.worker(f.path)` that the caller has still to
produce. -/
def MainPhase.pending (root : Option Node) : MainPhase → List Event
  | .checkReg => rootEvents root
  | .lstat => rootEvents root
  | .working w => w.pending
  | .waiting => []
  | .returned => []

/-- The events a state has still to produce. -/
def State.pending (c : Ctx) (s : State) : List Event :=
  s.main.pending c.root ++ s.tasks.flatMap Worker.pending

/-- The events of a whole run. -/
def fullEvents (c : Ctx) : List Event :=
  rootEvents c.root

/-- The call of `printPath` a visit leads to, if any. -/
def reportOf (re : RegexEngine) (f : find) : Event → Option Report
  | .visit dirPath node =>
    match correspond re f node.entry with
    | .ok true => some ⟨dirPath, node.entry, if descends node then .FgBlue else .FgGreen⟩
    | _ => none
  | _ => none

/-- The number of calls of `worker` that have not returned: what the counter
of the `WaitGroup` stands for. -/
def live (s : State) : Nat :=
  (match s.main with
    | .working w => if w.phase.isDone then 0 else 1
    | _ => 0) + s.tasks.countP (fun w => !w.phase.isDone)

/-- How many steps the caller has ahead outside the loop of `worker`. -/
def MainPhase.rank : MainPhase → Nat
  | .checkReg => 4
  | .lstat => 3
  | .working _ => 2
  | .waiting => 1
  | .returned => 0

/-- A bound on the number of steps a state can still take. -/
def measure (c : Ctx) (s : State) : Nat :=
  if s.fatal.isSome then 0 else s.main.rank + (s.pending c).length

/-- One step of some thread. -/
def Step (c : Ctx) (s s' : State) : Prop :=
  ∃ i, step c s i = some s'

/-- The states a run of `Find` on the finder `f` can be in. -/
def Reachable (c : Ctx) (f : find) (s : State) : Prop :=
  Relation.ReflTransGen (Step c) (init f) s

/-- The run is over: the process has exited or `Find` has returned. -/
def Final (s : State) : Prop :=
  s.fatal ≠ none ∨ s.main = .returned

/-- What a step of a call of `worker` that does not end the process does. -/
structure Effect (c : Ctx) (w : Worker) (s : State) (w' : Worker) (s' : State)
    (ev : Event) (new : List Worker) : Prop where
  pending : w.pending = ev :: (new.flatMap Worker.pending ++ w'.pending)
  tasks : s'.tasks = s.tasks ++ new
  out : s'.out = s.out ++ (reportOf c.re s.f ev).toList
  nbFiles : s'.f.nbFiles = if ev.isVisit then (s.f.nbFiles + 1) % 2 ^ 32 else s.f.nbFiles
  wg : s'.f.wg + (if w'.phase.isDone then 1 else 0) = s.f.wg + new.length
  path : s'.f.path = s.f.path
  searched : s'.f.searched = s.f.searched
  opts : s'.f.opts = s.f.opts
  main : s'.main = s.main
  summary : s'.summary = s.summary
  fatal : s'.fatal = none
  notBlocked : ev.isBlocked = false
  newLive : new.countP (fun n => !n.phase.isDone) = new.length
  newStart : ∀ n ∈ new, ∃ d, n.phase = .start d ∧ isHidden d = false
  moved : ∀ d, w'.phase ≠ .start d

/-- What a step of a run that does not end the process does: `evs` is the
event it produces, if it produces one. -/
structure StepEffect (c : Ctx) (s s' : State) (evs : List Event) : Prop where
  pre : s.fatal = none
  pending : (s.pending c).Perm (evs ++ s'.pending c)
  out : s'.out = s.out ++ evs.filterMap (reportOf c.re s.f)
  nbFiles : ∀ k, s.f.nbFiles = k % 2 ^ 32 →
    s'.f.nbFiles = (k + evs.countP Event.isVisit) % 2 ^ 32
  wg : s.f.wg = live s → s'.f.wg = live s'
  path : s'.f.path = s.f.path
  searched : s'.f.searched = s.f.searched
  opts : s'.f.opts = s.f.opts
  rank : s'.main.rank < s.main.rank + evs.length
  notBlocked : ∀ ev ∈ evs, ev.isBlocked = false
  starts : (∀ w ∈ s.tasks, ∀ d, w.phase = .start d → isHidden d = false) →
    ∀ w ∈ s'.tasks, ∀ d, w.phase = .start d → isHidden d = false
  returned : s'.main = .returned →
    s.main = .returned ∨
      (s.main = .waiting ∧ s.f.wg = 0 ∧ s'.f = s.f ∧ s'.out = s.out ∧
        s'.summary = (if s.f.opts.Bench then some s.f.nbFiles else none))
  notReturned : s'.main ≠ .returned → s'.summary = s.summary
  mainLive : (∀ w, s.main = .working w → w.phase.isDone = false) →
    ∀ w, s'.main = .working w → w.phase.isDone = false

/-- What holds of a state of a run of `Find` on the finder `f` in which the
process has not exited: `hist` is the events produced so far. -/
structure Inv (c : Ctx) (f : find) (s : State) (hist : List Event) : Prop where
  events : (hist ++ s.pending c).Perm (fullEvents c)
  notBlocked : ∀ ev ∈ hist, ev.isBlocked = false
  nbFiles : s.f.nbFiles = hist.countP Event.isVisit % 2 ^ 32
  out : s.out = hist.filterMap (reportOf c.re f)
  wg : s.f.wg = live s
  path : s.f.path = f.path
  searched : s.f.searched = f.searched
  opts : s.f.opts = f.opts
  starts : ∀ w ∈ s.tasks, ∀ d, w.phase = .start d → isHidden d = false
  returned : s.main = .returned →
    s.f.wg = 0 ∧ s.summary = (if f.opts.Bench then some s.f.nbFiles else none)
  notReturned : s.main ≠ .returned → s.summary = none
  mainLive : ∀ w, s.main = .working w → w.phase.isDone = false

/-- The relation "`n` steps lead from `s` to `s'`". -/
inductive StepsN (c : Ctx) : Nat → State → State → Prop where
  | refl (s : State) : StepsN c 0 s s
  | tail {n : Nat} {s s' s'' : State} : StepsN c n s s' → Step c s' s'' → StepsN c (n + 1) s s''

/-- The entry a visit is of, with the directory it is listed in. -/
def Event.asVisit : Event → Option (List String × Node)
  | .visit dirPath node => some (dirPath, node)
  | _ => none

mutual
/-- The listing items a walk started on the node `dirPath` names comes to: the
entries of the node, and those of every directory reached through directories
that are not hidden and can be listed. -/
def visitedIn (dirPath : List String) : Node → List (List String × Node)
  | .file _ => []
  | .dir _ _ readable children => if readable then visited dirPath children else []
/-- The listing items a walk comes to from the entries `nodes` of the directory
`dirPath`: each entry once, followed by those beneath it when it is a directory
that is not hidden. -/
def visited (dirPath : List String) : List Node → List (List String × Node)
  | [] => []
  | node :: rest =>
    (dirPath, node) ::
      ((if descends node then visitedIn (dirPath ++ [node.entry.Name]) node else []) ++
        visited dirPath rest)
end

mutual
/-- Every entry strictly below a node, at any depth, with the directory it is
listed in. -/
def belowIn (dirPath : List String) : Node → List (List String × Node)
  | .file _ => []
  | .dir _ _ _ children => below dirPath children
/-- The entries `nodes` of the directory `dirPath` and every entry below them. -/
def below (dirPath : List String) : List Node → List (List String × Node)
  | [] => []
  | node :: rest =>
    (dirPath, node) :: (belowIn (dirPath ++ [node.entry.Name]) node ++ below dirPath rest)
end

mutual
/-- No directory strictly below the node is hidden. -/
def noHiddenIn : Node → Bool
  | .file _ => true
  | .dir _ _ _ children => noHidden children
/-- None of the nodes is a hidden directory or has one below it. -/
def noHidden : List Node → Bool
  | [] => true
  | node :: rest => !isHidden node && noHiddenIn node && noHidden rest
end

mutual
/-- The node, if a directory, can be opened and listed, and so can every
directory below it. -/
def allReadableIn : Node → Bool
  | .file _ => true
  | .dir _ _ readable children => readable && allReadable children
/-- Every directory among the nodes and below them can be opened and listed. -/
def allReadable : List Node → Bool
  | [] => true
  | node :: rest => allReadableIn node && allReadable rest
end

mutual
/-- How many directories a walk started on the node would fail to open or list:
the node itself, or those reached through directories that are not hidden. -/
def blockedIn : Node → Nat
  | .file _ => 1
  | .dir _ _ readable children => if readable then blockedAmong children else 1
/-- How many directories a walk over the entries `nodes` would fail to open or
list. -/
def blockedAmong : List Node → Nat
  | [] => 0
  | node :: rest => (if descends node then blockedIn node else 0) + blockedAmong rest
end

/-- Whether `correspond` returns true for the entry. -/
def corresponds (re : RegexEngine) (f : find) (entry : DirEntry) : Bool :=
  match correspond re f entry with
  | .ok true => true
  | _ => false

/-- The call of `printPath` the loop of `worker` makes for an entry of the
directory `dirPath`, if it makes one. -/
def reportEntry (re : RegexEngine) (f : find) (x : List String × Node) : Option Report :=
  if corresponds re f x.2.entry then
    some ⟨x.1, x.2.entry, if descends x.2 then .FgBlue else .FgGreen⟩
  else none

/-! ## Examples -/

/-- The tree of the scenarios: `a.txt`, `b/`, `b/a.txt`. -/
def scenarioTree : Node :=
  .dir "root" false true [.file "a.txt", .dir "b" false true [.file "a.txt"]]

/-- The environment of the scenarios. -/
def scenarioCtx : Ctx :=
  { re := sampleEngine, root := some scenarioTree }

/-- Files only, literal pattern. -/
def filesOnly : Options :=
  { File := true, Dir := false, Regex := false, Absolute := false, Bench := true }

/-- The finder of scenario 1: `New("/root", "a", filesOnly)`. -/
def scenario1 : find :=
  { path := "/root", searched := "a", nbFiles := 0, opts := filesOnly, wg := 0 }

/-- An environment in which `os.Lstat(f.path)` fails. -/
def noRootCtx : Ctx :=
  { re := sampleEngine, root := none }

/-- A directory that holds 2^32 files, named 0, 1, 2, ... -/
def bigTree : Node :=
  .dir "root" false true ((List.range (2 ^ 32)).map (fun i => Node.file (toString i)))

/-- The environment in which the root is `bigTree`. -/
def bigCtx : Ctx :=
  { re := sampleEngine, root := some bigTree }

/-! ## Trees with the hidden directories emptied -/

/-- The node without its entries. -/
def Node.emptied : Node → Node
  | .file name => .file name
  | .dir name hidden readable _ => .dir name hidden readable []

mutual
/-- The node with every hidden directory strictly below it emptied. -/
def Node.prune : Node → Node
  | .file name => .file name
  | .dir name hidden readable children => .dir name hidden readable (pruneList children)
/-- The nodes with every hidden directory among them and below them emptied. -/
def pruneList : List Node → List Node
  | [] => []
  | node :: rest => (if isHidden node then node.emptied else node.prune) :: pruneList rest
end

/-- The phase of a worker in the tree with the hidden directories emptied. -/
def Phase.prune : Phase → Phase
  | .start d => .start d.prune
  | .loop rest => .loop (pruneList rest)
  | .done => .done

/-- The worker in the tree with the hidden directories emptied. -/
def Worker.prune (w : Worker) : Worker :=
  { dirPath := w.dirPath, phase := w.phase.prune }

/-- The caller in the tree with the hidden directories emptied. -/
def MainPhase.prune : MainPhase → MainPhase
  | .working w => .working w.prune
  | .checkReg => .checkReg
  | .lstat => .lstat
  | .waiting => .waiting
  | .returned => .returned

/-- The state in the tree with the hidden directories emptied: the finder, the
reports, the error and the summary are those of the state. -/
def State.prune (s : State) : State :=
  { s with main := s.main.prune, tasks := s.tasks.map Worker.prune }

/-- The environment in which every hidden directory strictly below the root is
emptied. -/
def Ctx.prune (c : Ctx) : Ctx :=
  { c with root := c.root.map Node.prune }

/-- The tree `a.txt`, `b/`, `b/a.txt` with `b` hidden. -/
def hiddenTree : Node :=
  .dir "root" false true [.file "a.txt", .dir "b" true true [.file "a.txt"]]

/-- The environment in which the root is `hiddenTree`. -/
def hiddenCtx : Ctx :=
  { re := sampleEngine, root := some hiddenTree }

/-- A hidden root that holds the file `a.txt`. -/
def hiddenRoot : Node :=
  .dir "root" true true [.file "a.txt"]

/-- The environment in which the root is `hiddenRoot`. -/
def hiddenRootCtx : Ctx :=
  { re := sampleEngine, root := some hiddenRoot }

/-- Files and directories, regular expression. -/
def bothRegex : Options :=
  { File := true, Dir := true, Regex := true, Absolute := false, Bench := true }

/-- The finder of scenario 2: `New("/root", "^a\\.", bothRegex)`. -/
def scenario2 : find :=
  { path := "/root", searched := "^a\\.", nbFiles := 0, opts := bothRegex, wg := 0 }

/-- Files and directories, literal pattern. -/
def bothLiteral : Options :=
  { File := true, Dir := true, Regex := false, Absolute := false, Bench := true }

/-- A finder for the name `b`: `New("/root", "b", bothLiteral)`. -/
def scenario4 : find :=
  { path := "/root", searched := "b", nbFiles := 0, opts := bothLiteral, wg := 0 }

/-! # Properties -/

/-! ## Steps of a worker -/

theorem dirEvents_of_readDir {p : List String} {d : Node} {cs : List Node}
    (h : readDir d = some cs) : dirEvents p d = .opened :: listEvents p cs := by
  cases d with
  | file n => simp [readDir] at h
  | dir n hd r ch =>
    cases r <;> simp [readDir] at h
    subst h
    simp [dirEvents]

theorem dirEvents_of_readDir_none {p : List String} {d : Node}
    (h : readDir d = none) : dirEvents p d = [.blocked] := by
  cases d with
  | file n => simp [dirEvents]
  | dir n hd r ch =>
    cases r <;> simp [readDir] at h
    simp [dirEvents]

theorem correspond_congr (re : RegexEngine) {f g : find} (hs : f.searched = g.searched)
    (ho : f.opts = g.opts) (e : DirEntry) : correspond re f e = correspond re g e := by
  simp [correspond, checkName, hs, ho]

theorem workerStep_effect (c : Ctx) (w : Worker) (s : State)
    (hw : w.phase.isDone = false) (hs : s.fatal = none)
    (h' : (workerStep c w s).2.fatal = none) :
    ∃ ev new, Effect c w s (workerStep c w s).1 (workerStep c w s).2 ev new := by
  obtain ⟨p, ph⟩ := w
  cases ph with
  | done => simp [Phase.isDone] at hw
  | start d =>
    cases hd : readDir d with
    | none => simp [workerStep, hd, printErr] at h'
    | some cs =>
      refine ⟨.opened, [], ?_⟩
      constructor <;>
        simp [workerStep, hd, Worker.pending, dirEvents_of_readDir hd, reportOf, Event.isVisit,
          Phase.isDone, hs, Event.isBlocked]
  | loop rest =>
    cases rest with
    | nil =>
      by_cases h0 : s.f.wg = 0
      · simp [workerStep, wgDone, h0, printErr] at h'
      · refine ⟨.finished, [], ?_⟩
        constructor <;>
          simp [workerStep, wgDone, h0, Worker.pending, listEvents, reportOf, Event.isVisit,
            Phase.isDone, hs, Event.isBlocked]
        omega
    | cons node rest =>
      cases hc : correspond c.re s.f node.entry with
      | error e =>
        simp [workerStep, hc, printErr] at h'
      | ok b =>
        by_cases hdesc : descends node = true
        · have hdesc' : (node.entry.IsDir && !isHidden node) = true := hdesc
          refine ⟨.visit p node, [⟨p ++ [node.entry.Name], .start node⟩], ?_⟩
          constructor <;>
            cases b <;>
            simp [workerStep, hc, hdesc', hdesc, Worker.pending, listEvents, reportOf,
              Event.isVisit, Phase.isDone, hs, Event.isBlocked, spawn, wgAdd, printPath,
              addNbFiles]
          all_goals
            simp [descends] at hdesc
            simp [hdesc]
        · have hdesc' : (node.entry.IsDir && !isHidden node) = false := by
            simpa [descends] using hdesc
          refine ⟨.visit p node, [], ?_⟩
          constructor <;>
            cases b <;>
            simp [workerStep, hc, hdesc', hdesc, Worker.pending, listEvents, reportOf,
              Event.isVisit, Phase.isDone, hs, Event.isBlocked, spawn, wgAdd, printPath,
              addNbFiles]


theorem perm_task_step (ev : Event) (m a b n w : List Event) :
    (m ++ (a ++ ((ev :: (n ++ w)) ++ b))).Perm ([ev] ++ (m ++ ((a ++ (w ++ b)) ++ n))) := by
  rw [← Multiset.coe_eq_coe]
  simp only [← Multiset.coe_add, ← Multiset.cons_coe, ← Multiset.singleton_add]
  abel

theorem getElem?_split {α : Type} {l : List α} {k : Nat} {w : α} (h : l[k]? = some w) :
    ∃ l1 l2, l = l1 ++ w :: l2 ∧ l1.length = k := by
  induction l generalizing k with
  | nil => simp at h
  | cons a l ih =>
    cases k with
    | zero =>
      simp at h
      exact ⟨[], l, by simp [h], rfl⟩
    | succ k =>
      simp at h
      obtain ⟨l1, l2, h1, h2⟩ := ih h
      exact ⟨a :: l1, l2, by simp [h1], by simp [h2]⟩

theorem set_split {α : Type} (l1 l2 : List α) (w w' : α) (new : List α) :
    (l1 ++ w :: l2 ++ new).set l1.length w' = l1 ++ w' :: l2 ++ new := by
  induction l1 with
  | nil => simp
  | cons a l ih => simpa using ih

theorem step_pre {c : Ctx} {s s' : State} {i : Nat} (h : step c s i = some s') :
    s.fatal = none := by
  unfold step at h
  split at h
  · simp at h
  · simpa using ‹¬ s.fatal.isSome = true›

theorem stepMain_effect (c : Ctx) (s s' : State) (hs : s.fatal = none)
    (h : stepMain c s = some s') (h' : s'.fatal = none) : ∃ evs, StepEffect c s s' evs := by
  unfold stepMain at h
  cases hm : s.main with
  | checkReg =>
    simp only [hm] at h
    cases hc : checkRegIfNeed c.re s.f with
    | error e => simp [hc, printErr] at h; subst h; simp at h'
    | ok u =>
      simp [hc] at h; subst h
      refine ⟨[], ?_⟩
      constructor <;> simp [hs, hm, State.pending, MainPhase.pending, live, MainPhase.rank]
  | lstat =>
    simp only [hm] at h
    cases hr : c.root with
    | none => simp [hr, printErr] at h; subst h; simp at h'
    | some d =>
      simp [hr] at h; subst h
      refine ⟨[], ?_⟩
      constructor <;>
        simp [hs, hm, hr, State.pending, MainPhase.pending, live, MainPhase.rank, wgAdd,
          Worker.pending, Phase.isDone, rootEvents]
      intro h; omega
  | waiting =>
    simp only [hm] at h
    by_cases h0 : s.f.wg = 0
    · simp [h0, details] at h; subst h
      refine ⟨[], ?_⟩
      constructor <;>
        simp [hs, hm, State.pending, MainPhase.pending, live, MainPhase.rank, h0]
    · simp [h0] at h
  | returned => simp [hm] at h
  | working w =>
    simp only [hm] at h
    by_cases hw : w.phase.isDone = true
    · have hws : workerStep c w s = (w, s) := by
        obtain ⟨p, ph⟩ := w
        cases ph <;> simp [Phase.isDone] at hw
        simp [workerStep]
      simp [hws, hw] at h; subst h
      refine ⟨[], ?_⟩
      have hp : w.pending = [] := by
        obtain ⟨p, ph⟩ := w
        cases ph <;> simp [Phase.isDone] at hw
        simp [Worker.pending]
      constructor <;>
        simp [hs, hm, State.pending, MainPhase.pending, live, MainPhase.rank, hw, hp]
    · have hw' : w.phase.isDone = false := by simpa using hw
      have key : ∀ w1 s1, workerStep c w s = (w1, s1) → ∃ evs, StepEffect c s s' evs := by
        intro w1 s1 hws
        rw [hws] at h
        simp only at h
        have hf : s1.fatal = none := by
          split at h <;> (simp at h; subst h; simpa using h')
        have e0 := workerStep_effect c w s hw' hs (by rw [hws]; exact hf)
        rw [hws] at e0
        obtain ⟨ev, new, e⟩ := e0
        simp only at e
        refine ⟨[ev], ?_⟩
        have hp1 : w1.phase.isDone = true → w1.pending = [] := by
          intro hd1
          obtain ⟨p, ph⟩ := w1
          cases ph <;> simp_all [Phase.isDone, Worker.pending]
        by_cases hd1 : w1.phase.isDone = true
        · simp [hd1] at h; subst h
          have := e.wg
          have hl := e.newLive
          constructor <;>
            simp [hs, hm, State.pending, MainPhase.pending, live, MainPhase.rank, hw', e.tasks,
              e.pending, hp1 hd1, e.out, e.path, e.searched, e.opts, e.summary, e.notBlocked,
              List.countP_append, hl]
          · rw [← Multiset.coe_eq_coe]
            simp only [← Multiset.coe_add, ← Multiset.cons_coe, ← Multiset.singleton_add]
            abel
          · cases hr : reportOf c.re s.f ev <;> simp [List.filterMap_cons, hr]
          · intro k hk
            rw [e.nbFiles]
            cases hv : ev.isVisit <;> simp [hv, hk]
          · intro hwg
            simp [hd1] at this
            omega
          · intro hst w2 hw2 d hd
            rcases hw2 with hw2 | hw2
            · exact hst w2 hw2 d hd
            · obtain ⟨d', hd', hh⟩ := e.newStart w2 hw2
              rw [hd] at hd'; cases hd'; exact hh
        · simp [hd1] at h; subst h
          have := e.wg
          have hl := e.newLive
          constructor <;>
            simp [hs, hm, State.pending, MainPhase.pending, live, MainPhase.rank, hw', e.tasks,
              e.pending, e.out, e.path, e.searched, e.opts, e.summary, e.notBlocked,
              List.countP_append, hl, hd1]
          · rw [← Multiset.coe_eq_coe]
            simp only [← Multiset.coe_add, ← Multiset.cons_coe, ← Multiset.singleton_add]
            abel
          · cases hr : reportOf c.re s.f ev <;> simp [List.filterMap_cons, hr]
          · intro k hk
            rw [e.nbFiles]
            cases hv : ev.isVisit <;> simp [hv, hk]
          · intro hwg
            simp [hd1] at this
            omega
          · intro hst w2 hw2 d hd
            rcases hw2 with hw2 | hw2
            · exact hst w2 hw2 d hd
            · obtain ⟨d', hd', hh⟩ := e.newStart w2 hw2
              rw [hd] at hd'; cases hd'; exact hh
      exact key _ _ rfl

theorem stepTask_effect (c : Ctx) (s s' : State) (k : Nat) (hs : s.fatal = none)
    (h : stepTask c s k = some s') (h' : s'.fatal = none) : ∃ evs, StepEffect c s s' evs := by
  unfold stepTask at h
  cases hk : s.tasks[k]? with
  | none => simp [hk] at h
  | some w =>
    simp only [hk] at h
    by_cases hw : w.phase.isDone = true
    · simp [hw] at h
    · have hw' : w.phase.isDone = false := by simpa using hw
      simp only [hw', Bool.false_eq_true, if_false] at h
      have key : ∀ w1 s1, workerStep c w s = (w1, s1) → ∃ evs, StepEffect c s s' evs := by
        intro w1 s1 hws
        rw [hws] at h
        simp only [Option.some.injEq] at h
        subst h
        have hf : s1.fatal = none := by simpa using h'
        have e0 := workerStep_effect c w s hw' hs (by rw [hws]; exact hf)
        rw [hws] at e0
        obtain ⟨ev, new, e⟩ := e0
        simp only at e
        obtain ⟨l1, l2, hl, hlen⟩ := getElem?_split hk
        have hset : s1.tasks.set k w1 = l1 ++ w1 :: l2 ++ new := by
          rw [e.tasks, hl, ← hlen]
          exact set_split l1 l2 w w1 new
        refine ⟨[ev], ?_⟩
        have hwg := e.wg
        have hnl := e.newLive
        have hmv := e.moved
        have hcnt : ∀ (w0 : Worker), ((l1 ++ w0 :: l2 ++ new).countP (fun n => !n.phase.isDone)) =
            l1.countP (fun n => !n.phase.isDone) + (if w0.phase.isDone then 0 else 1) +
              l2.countP (fun n => !n.phase.isDone) + new.length := by
          intro w0
          simp only [List.countP_append, List.countP_cons, hnl]
          cases w0.phase.isDone <;> simp <;> omega
        have hcnt0 : ((l1 ++ w :: l2).countP (fun n => !n.phase.isDone)) =
            l1.countP (fun n => !n.phase.isDone) + 1 +
              l2.countP (fun n => !n.phase.isDone) := by
          simp only [List.countP_append, List.countP_cons, hw']
          simp; omega
        refine
          { pre := hs, pending := ?_, out := ?_, nbFiles := ?_, wg := ?_, path := e.path,
            searched := e.searched, opts := e.opts, rank := ?_, notBlocked := ?_, starts := ?_,
            returned := ?_, notReturned := ?_, mainLive := by simp only [e.main]; exact id }
        · simp only [State.pending, hset, hl, e.pending, e.main, List.flatMap_append,
            List.flatMap_cons]
          simpa using perm_task_step ev _ _ _ _ _
        · simp only [e.out]
          cases hr : reportOf c.re s.f ev <;> simp [List.filterMap_cons, hr]
        · intro k hk
          simp only [e.nbFiles]
          cases hv : ev.isVisit <;> simp [hv, hk]
        · intro hwg'
          simp only [live, hset, e.main, hcnt]
          simp only [live, hl, hcnt0] at hwg'
          by_cases hd1 : w1.phase.isDone = true <;> (simp [hd1] at hwg ⊢; omega)
        · simp [e.main]
        · intro ev' hev; simp at hev; subst hev; exact e.notBlocked
        · intro hst w2 hw2 d hd
          simp only [hset, hl, List.mem_append, List.mem_cons] at hst hw2
          rcases hw2 with (hw2 | hw2 | hw2) | hw2
          · exact hst w2 (Or.inl hw2) d hd
          · subst hw2; exact (hmv d hd).elim
          · exact hst w2 (Or.inr (Or.inr hw2)) d hd
          · obtain ⟨d', hd', hh⟩ := e.newStart w2 hw2
            rw [hd] at hd'; cases hd'; exact hh
        · intro hret
          simp only [e.main] at hret
          exact Or.inl hret
        · intro _; simp [e.summary]
      exact key _ _ rfl


theorem step_effect {c : Ctx} {s s' : State} {i : Nat} (h : step c s i = some s')
    (h' : s'.fatal = none) : ∃ evs, StepEffect c s s' evs := by
  have hs := step_pre h
  unfold step at h
  simp only [hs, Option.isSome_none, Bool.false_eq_true, if_false] at h
  cases i with
  | zero => exact stepMain_effect c s s' hs h h'
  | succ k => exact stepTask_effect c s s' k hs h h'

theorem dirEvents_ne_nil (p : List String) (d : Node) : dirEvents p d ≠ [] := by
  cases d with
  | file n => simp [dirEvents]
  | dir n h r cs => cases r <;> simp [dirEvents]

theorem listEvents_ne_nil (p : List String) (l : List Node) : listEvents p l ≠ [] := by
  cases l <;> simp [listEvents]

theorem pending_ne_nil {w : Worker} (hw : w.phase.isDone = false) : w.pending ≠ [] := by
  obtain ⟨p, ph⟩ := w
  cases ph with
  | start d => simpa [Worker.pending] using dirEvents_ne_nil p d
  | loop l => simpa [Worker.pending] using listEvents_ne_nil p l
  | done => simp [Phase.isDone] at hw

theorem workerStep_main (c : Ctx) (w : Worker) (s : State) :
    (workerStep c w s).2.main = s.main := by
  obtain ⟨p, ph⟩ := w
  cases ph with
  | done => simp [workerStep]
  | start d => cases hd : readDir d <;> simp [workerStep, hd, printErr]
  | loop rest =>
    cases rest with
    | nil => simp only [workerStep, wgDone]; split <;> simp [printErr]
    | cons node rest =>
      simp only [workerStep]
      split <;> split <;> try split
      all_goals simp [printErr, spawn, wgAdd, printPath, addNbFiles]

/-- Why a step of a worker ends the process. -/
theorem workerStep_fatal (c : Ctx) (w : Worker) (s : State) (hs : s.fatal = none)
    (h' : (workerStep c w s).2.fatal ≠ none) :
    ((workerStep c w s).2.summary = s.summary ∧ (workerStep c w s).2.out = s.out) ∧
    (.blocked ∈ w.pending ∨ (∃ e err, correspond c.re s.f e = .error err) ∨
      (s.f.wg = 0 ∧ w.phase.isDone = false)) := by
  obtain ⟨p, ph⟩ := w
  cases ph with
  | done => simp [workerStep, hs] at h'
  | start d =>
    cases hd : readDir d with
    | none => simp [workerStep, hd, printErr, Worker.pending, dirEvents_of_readDir_none hd]
    | some cs => simp [workerStep, hd, hs] at h'
  | loop rest =>
    cases rest with
    | nil =>
      by_cases h0 : s.f.wg = 0
      · simp [workerStep, wgDone, h0, printErr, Phase.isDone]
      · simp [workerStep, wgDone, h0, hs] at h'
    | cons node rest =>
      cases hc : correspond c.re s.f node.entry with
      | error e =>
        refine ⟨?_, Or.inr (Or.inl ⟨_, _, hc⟩)⟩
        simp [workerStep, hc, printErr, addNbFiles]
      | ok b =>
        exfalso
        apply h'
        cases b <;> simp [workerStep, hc, spawn, wgAdd, printPath, addNbFiles, hs] <;>
          split <;> simp [hs]

/-- Why a step ends the process, and what it leaves as it was. -/
theorem step_fatal {c : Ctx} {s s' : State} {i : Nat} (h : step c s i = some s')
    (h' : s'.fatal ≠ none) :
    (s'.summary = s.summary ∧ s'.out = s.out ∧ (s.main ≠ .returned → s'.main ≠ .returned)) ∧
    ((∃ err, checkRegIfNeed c.re s.f = .error err) ∨ c.root = none ∨
      .blocked ∈ s.pending c ∨ (∃ e err, correspond c.re s.f e = .error err) ∨
      (s.f.wg = 0 ∧ 0 < live s)) := by
  have hs := step_pre h
  unfold step at h
  simp only [hs, Option.isSome_none, Bool.false_eq_true, if_false] at h
  cases i with
  | zero =>
    simp only at h
    unfold stepMain at h
    cases hm : s.main with
    | checkReg =>
      simp only [hm] at h
      cases hc : checkRegIfNeed c.re s.f with
      | error e => simp [hc, printErr] at h; subst h; simp [hm]
      | ok u => simp [hc] at h; subst h; simp [hs] at h'
    | lstat =>
      simp only [hm] at h
      cases hr : c.root with
      | none => simp [hr, printErr] at h; subst h; simp [hm]
      | some d => simp [hr] at h; subst h; simp [hs, wgAdd] at h'
    | waiting =>
      simp only [hm] at h
      by_cases h0 : s.f.wg = 0
      · simp [h0, details] at h; subst h; simp [hs] at h'
      · simp [h0] at h
    | returned => simp [hm] at h
    | working w =>
      simp only [hm] at h
      have hf : (workerStep c w s).2.fatal ≠ none := by
        split at h <;> (simp at h; subst h; simpa using h')
      obtain ⟨⟨h1, h2⟩, h3⟩ := workerStep_fatal c w s hs hf
      refine ⟨?_, ?_⟩
      · split at h <;> (simp at h; subst h; simp [h1, h2])
      · rcases h3 with h3 | h3 | ⟨h3, h4⟩
        · exact Or.inr (Or.inr (Or.inl (by simp [State.pending, hm, MainPhase.pending, h3])))
        · exact Or.inr (Or.inr (Or.inr (Or.inl h3)))
        · exact Or.inr (Or.inr (Or.inr (Or.inr ⟨h3, by simp [live, hm, h4]⟩)))
  | succ k =>
    simp only at h
    unfold stepTask at h
    cases hk : s.tasks[k]? with
    | none => simp [hk] at h
    | some w =>
      simp only [hk] at h
      by_cases hw : w.phase.isDone = true
      · simp [hw] at h
      · have hw' : w.phase.isDone = false := by simpa using hw
        simp only [hw', Bool.false_eq_true, if_false, Option.some.injEq] at h
        subst h
        have hf : (workerStep c w s).2.fatal ≠ none := by simpa using h'
        obtain ⟨⟨h1, h2⟩, h3⟩ := workerStep_fatal c w s hs hf
        obtain ⟨l1, l2, hl, -⟩ := getElem?_split hk
        have hmain : (workerStep c w s).2.main = s.main := workerStep_main c w s
        refine ⟨⟨by simp [h1], by simp [h2], ?_⟩, ?_⟩
        · simp only [hmain]
          exact id
        rcases h3 with h3 | h3 | ⟨h3, h4⟩
        · exact Or.inr (Or.inr (Or.inl (by simp [State.pending, hl, h3])))
        · exact Or.inr (Or.inr (Or.inr (Or.inl h3)))
        · refine Or.inr (Or.inr (Or.inr (Or.inr ⟨h3, ?_⟩)))
          simp [live, hl, List.countP_append, List.countP_cons, h4]

/-- Every step brings the end of the run nearer. -/
theorem step_measure {c : Ctx} {s s' : State} {i : Nat} (h : step c s i = some s') :
    measure c s' < measure c s := by
  have hs := step_pre h
  cases hf : s'.fatal with
  | some e =>
    simp only [measure, hf, hs, Option.isSome_some, Option.isSome_none, if_true,
      Bool.false_eq_true, if_false]
    unfold step at h
    simp only [hs, Option.isSome_none, Bool.false_eq_true, if_false] at h
    cases i with
    | zero =>
      simp only at h
      unfold stepMain at h
      cases hm : s.main <;> simp [hm, MainPhase.rank] at h ⊢
    | succ k =>
      simp only at h
      unfold stepTask at h
      cases hk : s.tasks[k]? with
      | none => simp [hk] at h
      | some w =>
        simp only [hk] at h
        by_cases hw : w.phase.isDone = true
        · simp [hw] at h
        · have hw' : w.phase.isDone = false := by simpa using hw
          obtain ⟨l1, l2, hl, -⟩ := getElem?_split hk
          have := List.length_pos.2 (pending_ne_nil hw')
          simp [State.pending, hl]
          omega
  | none =>
    obtain ⟨evs, e⟩ := step_effect h hf
    have h1 := e.pending.length_eq
    have h2 := e.rank
    simp only [measure, hf, hs, Option.isSome_none, Bool.false_eq_true, if_false]
    rw [List.length_append] at h1
    omega

theorem reportOf_congr (re : RegexEngine) {f g : find} (hs : f.searched = g.searched)
    (ho : f.opts = g.opts) : reportOf re f = reportOf re g := by
  funext ev
  cases ev <;> simp [reportOf, correspond_congr re hs ho]

/-- No thread moves once `Find` has returned with the counter equal to the
number of live workers. -/
theorem no_step_returned {c : Ctx} {s : State} (hm : s.main = .returned)
    (hwg : s.f.wg = live s) (h0 : s.f.wg = 0) (i : Nat) : step c s i = none := by
  unfold step
  split
  · rfl
  · cases i with
    | zero => simp [stepMain, hm]
    | succ k =>
      simp only [stepTask]
      cases hk : s.tasks[k]? with
      | none => rfl
      | some w =>
        obtain ⟨l1, l2, hl, -⟩ := getElem?_split hk
        rw [h0] at hwg
        simp only [live, hm, hl, List.countP_append, List.countP_cons] at hwg
        by_cases hw : w.phase.isDone = true
        · simp [hw]
        · simp [hw] at hwg
          omega

theorem live_zero_pending {c : Ctx} {s : State} (hm : s.main = .returned) (h0 : live s = 0) :
    s.pending c = [] := by
  simp only [live, hm, zero_add, List.countP_eq_zero] at h0
  simp only [State.pending, hm, MainPhase.pending, List.nil_append, List.flatMap_eq_nil_iff]
  intro w hw
  have := h0 w hw
  obtain ⟨p, ph⟩ := w
  cases ph <;> simp_all [Phase.isDone, Worker.pending]

theorem inv_init (c : Ctx) (f : find) (hn : f.nbFiles = 0) (hw : f.wg = 0) :
    Inv c f (init f) [] := by
  constructor <;>
    simp [init, State.pending, MainPhase.pending, fullEvents, hn, hw, live]

theorem inv_step {c : Ctx} {f : find} {s s' : State} {hist : List Event} {i : Nat}
    (inv : Inv c f s hist) (h : step c s i = some s') (h' : s'.fatal = none) :
    ∃ evs, Inv c f s' (hist ++ evs) := by
  obtain ⟨evs, e⟩ := step_effect h h'
  have hnr : s.main ≠ .returned := by
    intro hm
    have := no_step_returned (c := c) hm inv.wg (inv.returned hm).1 i
    rw [this] at h; cases h
  refine ⟨evs, ?_⟩
  refine
    { events := ?_, notBlocked := ?_, nbFiles := ?_, out := ?_, wg := e.wg inv.wg,
      path := e.path.trans inv.path, searched := e.searched.trans inv.searched,
      opts := e.opts.trans inv.opts, starts := e.starts inv.starts, returned := ?_,
      notReturned := ?_, mainLive := e.mainLive inv.mainLive }
  · rw [List.append_assoc]
    exact (List.Perm.append_left hist e.pending.symm).trans inv.events
  · intro ev hev
    rcases List.mem_append.1 hev with hev | hev
    · exact inv.notBlocked ev hev
    · exact e.notBlocked ev hev
  · rw [List.countP_append]
    exact e.nbFiles _ inv.nbFiles
  · rw [List.filterMap_append, e.out, inv.out, reportOf_congr c.re inv.searched inv.opts]
  · intro hret
    rcases e.returned hret with h1 | ⟨-, h2, h3, -, h4⟩
    · exact (hnr h1).elim
    · rw [h3, h4, inv.opts]
      exact ⟨h2, rfl⟩
  · intro hret
    rw [e.notReturned hret]
    exact inv.notReturned hnr

/-- Every state of a run in which the process has not exited satisfies the
invariant, for some list of past events; a state in which it has exited is one
step after such a state, `Find` has not returned and `details` has printed nothing. -/
theorem reachable_inv {c : Ctx} {f : find} (hn : f.nbFiles = 0) (hw : f.wg = 0) {s : State}
    (hr : Reachable c f s) :
    (s.fatal = none → ∃ hist, Inv c f s hist) ∧
      (s.fatal ≠ none → s.summary = none ∧ s.main ≠ .returned ∧
        ∃ s0 hist i, Inv c f s0 hist ∧ step c s0 i = some s) := by
  induction hr with
  | refl => exact ⟨fun _ => ⟨[], inv_init c f hn hw⟩, fun h => by simp [init] at h⟩
  | @tail s1 s2 _ hstep ih =>
    obtain ⟨i, hi⟩ := hstep
    obtain ⟨hist, inv⟩ := ih.1 (step_pre hi)
    have hnr : s1.main ≠ MainPhase.returned := by
      intro hm
      have := no_step_returned (c := c) hm inv.wg (inv.returned hm).1 i
      rw [this] at hi; cases hi
    refine ⟨fun h' => ?_, fun h' => ?_⟩
    · obtain ⟨evs, inv'⟩ := inv_step inv hi h'
      exact ⟨_, inv'⟩
    · obtain ⟨⟨h1, -, h3⟩, -⟩ := step_fatal hi h'
      exact ⟨h1.trans (inv.notReturned hnr), h3 hnr, s1, hist, i, inv, hi⟩

/-- A run that has not ended can go on: some thread can move. -/
theorem progress {c : Ctx} {f : find} {s : State} {hist : List Event} (inv : Inv c f s hist)
    (hf : s.fatal = none) (hm : s.main ≠ .returned) : ∃ i s', step c s i = some s' := by
  have hstep : ∀ i, step c s i = match i with
      | 0 => stepMain c s
      | k + 1 => stepTask c s k := by
    intro i; simp [step, hf]
  cases hmain : s.main with
  | returned => exact (hm hmain).elim
  | checkReg =>
    refine ⟨0, ?_⟩
    rw [hstep]; simp only [stepMain, hmain]
    split <;> exact ⟨_, rfl⟩
  | lstat =>
    refine ⟨0, ?_⟩
    rw [hstep]; simp only [stepMain, hmain]
    split <;> exact ⟨_, rfl⟩
  | working w =>
    refine ⟨0, ?_⟩
    rw [hstep]; simp only [stepMain, hmain]
    split <;> exact ⟨_, rfl⟩
  | waiting =>
    by_cases h0 : s.f.wg = 0
    · refine ⟨0, ?_⟩
      rw [hstep]; simp only [stepMain, hmain, h0, if_true]
      exact ⟨_, rfl⟩
    · have hl := inv.wg
      simp only [live, hmain, zero_add] at hl
      have hpos : 0 < s.tasks.countP (fun w => !w.phase.isDone) := by omega
      obtain ⟨w, hw, hnd⟩ := List.countP_pos_iff.1 hpos
      obtain ⟨k, hk⟩ := List.mem_iff_getElem?.1 hw
      refine ⟨k + 1, ?_⟩
      rw [hstep]
      simp only [stepTask, hk]
      simp only [Bool.not_eq_true', ] at hnd
      simp [hnd]

theorem next_some_of_step {c : Ctx} {s s' : State} {i : Nat} (h : step c s i = some s') :
    ∃ s'', next c s = some s'' := by
  have hi : i ∈ List.range (s.tasks.length + 1) := by
    rw [List.mem_range]
    cases i with
    | zero => omega
    | succ k =>
      have hs := step_pre h
      simp only [step, hs, Option.isSome_none, Bool.false_eq_true, if_false, stepTask] at h
      cases hk : s.tasks[k]? with
      | none => simp [hk] at h
      | some w =>
        have := (List.getElem?_eq_some.1 hk).1
        omega
  cases hn : next c s with
  | some s'' => exact ⟨s'', rfl⟩
  | none =>
    have := List.findSome?_eq_none_iff.1 hn i hi
    rw [this] at h; cases h

theorem next_step {c : Ctx} {s s' : State} (h : next c s = some s') : Step c s s' := by
  obtain ⟨l1, i, l2, -, hi, -⟩ := List.findSome?_eq_some_iff.1 h
  exact ⟨i, hi⟩

/-- The scheduler `next` brings every run to its end within `measure` steps;
the state it ends in is one of the run. -/
theorem run_final {c : Ctx} {f : find} (hn : f.nbFiles = 0) (hw : f.wg = 0) :
    ∀ (fuel : Nat) (s : State), Reachable c f s → measure c s ≤ fuel →
      Reachable c f (run c fuel s) ∧ Final (run c fuel s) := by
  intro fuel
  induction fuel with
  | zero =>
    intro s hr hm
    refine ⟨hr, ?_⟩
    simp only [run, Final]
    by_cases hf : s.fatal = none
    · right
      simp only [measure, hf, Option.isSome_none, Bool.false_eq_true, if_false] at hm
      cases hmain : s.main <;> simp [hmain, MainPhase.rank] at hm ⊢
    · exact Or.inl hf
  | succ fuel ih =>
    intro s hr hm
    simp only [run]
    cases hnext : next c s with
    | none =>
      refine ⟨hr, ?_⟩
      by_cases hf : s.fatal = none
      · right
        by_contra hmain
        obtain ⟨hist, inv⟩ := (reachable_inv hn hw hr).1 hf
        obtain ⟨i, s', hs'⟩ := progress inv hf hmain
        obtain ⟨s'', h''⟩ := next_some_of_step hs'
        rw [hnext] at h''; cases h''
      · exact Or.inl hf
    | some s' =>
      have hst := next_step hnext
      obtain ⟨i, hi⟩ := hst
      have := step_measure hi
      exact ih s' (Relation.ReflTransGen.tail hr ⟨i, hi⟩) (by omega)

/-- No run takes more steps than `measure` allows. -/
theorem stepsN_bounded {c : Ctx} {n : Nat} {s s' : State} (h : StepsN c n s s') :
    n + measure c s' ≤ measure c s := by
  induction h with
  | refl s => simp
  | tail _ hstep ih =>
    obtain ⟨i, hi⟩ := hstep
    have := step_measure hi
    omega

theorem stepsN_reachable {c : Ctx} {f : find} {n : Nat} {s s' : State}
    (hr : Reachable c f s) (h : StepsN c n s s') : Reachable c f s' := by
  induction h with
  | refl s => exact hr
  | tail _ hstep ih => exact Relation.ReflTransGen.tail (ih hr) hstep

mutual
theorem dirEvents_visits (p : List String) :
    ∀ d : Node, (dirEvents p d).filterMap Event.asVisit = visitedIn p d
  | .file _ => by simp [dirEvents, visitedIn, Event.asVisit]
  | .dir _ _ r cs => by
    cases r
    · simp [dirEvents, visitedIn, Event.asVisit]
    · simp [dirEvents, visitedIn, Event.asVisit, listEvents_visits p cs]
theorem listEvents_visits (p : List String) :
    ∀ l : List Node, (listEvents p l).filterMap Event.asVisit = visited p l
  | [] => by simp [listEvents, visited, Event.asVisit]
  | node :: rest => by
    simp only [listEvents, visited, List.filterMap_cons, Event.asVisit, List.filterMap_append,
      listEvents_visits p rest]
    split
    · simp [dirEvents_visits (p ++ [node.entry.Name]) node]
    · simp
end

mutual
theorem dirEvents_blocked (p : List String) :
    ∀ d : Node, (dirEvents p d).countP Event.isBlocked = blockedIn d
  | .file _ => by simp [dirEvents, blockedIn, Event.isBlocked]
  | .dir _ _ r cs => by
    cases r
    · simp [dirEvents, blockedIn, Event.isBlocked]
    · simp [dirEvents, blockedIn, Event.isBlocked, listEvents_blocked p cs]
theorem listEvents_blocked (p : List String) :
    ∀ l : List Node, (listEvents p l).countP Event.isBlocked = blockedAmong l
  | [] => by simp [listEvents, blockedAmong, Event.isBlocked]
  | node :: rest => by
    simp only [listEvents, blockedAmong, List.countP_cons, Event.isBlocked, List.countP_append,
      listEvents_blocked p rest]
    split
    · simp [dirEvents_blocked (p ++ [node.entry.Name]) node]
    · simp
end

theorem countP_isVisit (l : List Event) :
    l.countP Event.isVisit = (l.filterMap Event.asVisit).length := by
  induction l with
  | nil => simp
  | cons ev l ih => cases ev <;> simp [List.countP_cons, Event.isVisit, Event.asVisit, ih]

theorem filterMap_reportOf (re : RegexEngine) (f : find) (l : List Event) :
    l.filterMap (reportOf re f) = (l.filterMap Event.asVisit).filterMap (reportEntry re f) := by
  induction l with
  | nil => simp
  | cons ev l ih =>
    cases ev with
    | visit p node =>
      simp only [List.filterMap_cons, reportOf, Event.asVisit, ih, reportEntry, corresponds]
      cases hc : correspond re f node.entry with
      | error e => simp
      | ok b => cases b <;> simp
    | _ => simp [List.filterMap_cons, reportOf, Event.asVisit, ih]

mutual
theorem visitedIn_eq_belowIn (p : List String) :
    ∀ d : Node, noHiddenIn d = true → allReadableIn d = true → visitedIn p d = belowIn p d
  | .file _ => by simp [visitedIn, belowIn]
  | .dir _ _ r cs => by
    intro h1 h2
    simp only [noHiddenIn] at h1
    simp only [allReadableIn, Bool.and_eq_true] at h2
    simp [visitedIn, belowIn, h2.1, visited_eq_below p cs h1 h2.2]
theorem visited_eq_below (p : List String) :
    ∀ l : List Node, noHidden l = true → allReadable l = true → visited p l = below p l
  | [] => by simp [visited, below]
  | node :: rest => by
    intro h1 h2
    simp only [noHidden, Bool.and_eq_true, Bool.not_eq_true'] at h1
    simp only [allReadable, Bool.and_eq_true] at h2
    simp only [visited, below, visited_eq_below p rest h1.2 h2.2]
    cases node with
    | file n => simp [descends, Node.entry, visitedIn, belowIn]
    | dir n h r cs =>
      have := visitedIn_eq_belowIn (p ++ [n]) (.dir n h r cs) h1.1.2 h2.1
      have hh : h = false := by simpa [isHidden] using h1.1.1
      subst hh
      simp [descends, Node.entry, isHidden, this]
end

/-- When `Find` has returned, the process has not exited, no worker is left and
every event of the walk has been produced. -/
theorem returned_inv {c : Ctx} {f : find} (hn : f.nbFiles = 0) (hw : f.wg = 0) {s : State}
    (hr : Reachable c f s) (hm : s.main = .returned) :
    s.fatal = none ∧ ∃ hist, Inv c f s hist ∧ hist.Perm (fullEvents c) := by
  have h := reachable_inv hn hw hr
  have hf : s.fatal = none := by
    by_contra hf
    exact (h.2 hf).2.1 hm
  obtain ⟨hist, inv⟩ := h.1 hf
  refine ⟨hf, hist, inv, ?_⟩
  have h0 : live s = 0 := by rw [← inv.wg]; exact (inv.returned hm).1
  have := inv.events
  rwa [live_zero_pending hm h0, List.append_nil] at this

theorem checkRegIfNeed_congr (re : RegexEngine) {f g : find} (hs : f.searched = g.searched)
    (ho : f.opts = g.opts) : checkRegIfNeed re f = checkRegIfNeed re g := by
  simp [checkRegIfNeed, hs, ho]

/-- Once `checkRegIfNeed` has passed, `checkName` and `correspond` return a
result. -/
theorem correspond_ok_of_checkReg {re : RegexEngine} {f : find}
    (h : checkRegIfNeed re f = .ok ()) (e : DirEntry) :
    (∃ b, checkName re f e = .ok b) ∧ ∃ b, correspond re f e = .ok b := by
  have hcn : ∃ b, checkName re f e = .ok b := by
    simp only [checkRegIfNeed] at h
    simp only [checkName, RegexEngine.matchString]
    cases hR : f.opts.Regex with
    | false => simp only [Bool.false_eq_true, if_false]; split <;> exact ⟨_, rfl⟩
    | true =>
      simp only [hR, if_true] at h
      cases hc : re.compile f.searched with
      | none => simp [hc] at h
      | some m => exact ⟨_, rfl⟩
  refine ⟨hcn, ?_⟩
  simp only [correspond]
  split
  · exact hcn
  · split
    · exact hcn
    · split
      · exact hcn
      · exact ⟨_, rfl⟩

/-- With a root that exists, a pattern that passes `checkRegIfNeed` and no
directory the walk fails to open, the process never exits. -/
theorem never_fatal {c : Ctx} {f : find} (hn : f.nbFiles = 0) (hw : f.wg = 0)
    (hreg : checkRegIfNeed c.re f = .ok ()) (hb : (fullEvents c).countP Event.isBlocked = 0)
    {s : State} (hr : Reachable c f s) : s.fatal = none := by
  by_contra hf
  obtain ⟨-, -, s0, hist, i, inv, hi⟩ := (reachable_inv hn hw hr).2 hf
  obtain ⟨-, hcause⟩ := step_fatal hi hf
  have hcfg := checkRegIfNeed_congr c.re inv.searched inv.opts
  have hnb : ∀ ev ∈ fullEvents c, ev.isBlocked = false := by
    intro ev hev
    have := List.countP_eq_zero.1 hb ev hev
    simpa using this
  rcases hcause with ⟨err, h1⟩ | h1 | h1 | ⟨e, err, h1⟩ | ⟨h1, h2⟩
  · rw [hcfg, hreg] at h1; cases h1
  · have := hnb .blocked (by simp [fullEvents, h1, rootEvents])
    simp [Event.isBlocked] at this
  · have hmem : Event.blocked ∈ fullEvents c :=
      inv.events.mem_iff.1 (List.mem_append_right _ h1)
    have := hnb _ hmem
    simp [Event.isBlocked] at this
  · rw [correspond_congr c.re inv.searched inv.opts] at h1
    obtain ⟨b, hb'⟩ := (correspond_ok_of_checkReg hreg e).2
    rw [hb'] at h1; cases h1
  · have := inv.wg
    omega

/-- With a root that exists, a pattern that passes `checkRegIfNeed` and no
directory the walk fails to open, the run under the scheduler `next` ends with
`Find` returned. -/
theorem run_returns {c : Ctx} {f : find} (hn : f.nbFiles = 0) (hw : f.wg = 0)
    (hreg : checkRegIfNeed c.re f = .ok ()) (hb : (fullEvents c).countP Event.isBlocked = 0) :
    (run c (measure c (init f)) (init f)).main = .returned := by
  obtain ⟨h1, h2⟩ := run_final (c := c) hn hw (measure c (init f)) (init f)
    Relation.ReflTransGen.refl (le_refl _)
  rcases h2 with h2 | h2
  · exact (h2 (never_fatal hn hw hreg hb h1)).elim
  · exact h2

theorem New_fresh {path searched : String} {opts : Options} {f : find}
    (h : New path searched opts = .ok f) :
    f.nbFiles = 0 ∧ f.wg = 0 ∧ f.path = path ∧ f.searched = searched ∧ f.opts = opts := by
  simp only [New] at h
  split at h
  · cases h
  · cases h; simp

theorem workerStep_static (c : Ctx) (w : Worker) (s : State) :
    (workerStep c w s).2.f.path = s.f.path ∧ (workerStep c w s).2.f.searched = s.f.searched ∧
      (workerStep c w s).2.f.opts = s.f.opts := by
  obtain ⟨p, ph⟩ := w
  cases ph with
  | done => simp [workerStep]
  | start d => cases hd : readDir d <;> simp [workerStep, hd, printErr]
  | loop rest =>
    cases rest with
    | nil => simp only [workerStep, wgDone]; split <;> simp [printErr]
    | cons node rest =>
      simp only [workerStep]
      split <;> split <;> try split
      all_goals simp [printErr, spawn, wgAdd, printPath, addNbFiles]

/-- No step changes the path, the pattern or the options of the finder. -/
theorem step_static {c : Ctx} {s s' : State} {i : Nat} (h : step c s i = some s') :
    s'.f.path = s.f.path ∧ s'.f.searched = s.f.searched ∧ s'.f.opts = s.f.opts := by
  have hs := step_pre h
  unfold step at h
  simp only [hs, Option.isSome_none, Bool.false_eq_true, if_false] at h
  cases i with
  | zero =>
    simp only at h
    unfold stepMain at h
    cases hm : s.main with
    | checkReg =>
      simp only [hm] at h
      split at h <;> (simp [printErr] at h; subst h; simp)
    | lstat =>
      simp only [hm] at h
      split at h <;> (simp [printErr, wgAdd] at h; subst h; simp)
    | waiting =>
      simp only [hm] at h
      split at h
      · simp [details] at h; subst h; simp
      · cases h
    | returned => simp [hm] at h
    | working w =>
      simp only [hm] at h
      have := workerStep_static c w s
      split at h <;> (simp at h; subst h; simpa using this)
  | succ k =>
    simp only at h
    unfold stepTask at h
    cases hk : s.tasks[k]? with
    | none => simp [hk] at h
    | some w =>
      simp only [hk] at h
      have := workerStep_static c w s
      split at h
      · cases h
      · simp at h; subst h; simpa using this

theorem reachable_static {c : Ctx} {f : find} {s : State} (hr : Reachable c f s) :
    s.f.path = f.path ∧ s.f.searched = f.searched ∧ s.f.opts = f.opts := by
  induction hr with
  | refl => simp [init]
  | tail _ hstep ih =>
    obtain ⟨i, hi⟩ := hstep
    obtain ⟨h1, h2, h3⟩ := step_static hi
    exact ⟨h1.trans ih.1, h2.trans ih.2.1, h3.trans ih.2.2⟩

/-- A step of a worker that ends the process leaves the worker, the counter and
the goroutines as they were. -/
theorem workerStep_fatal_frame (c : Ctx) (w : Worker) (s : State) (hs : s.fatal = none)
    (h' : (workerStep c w s).2.fatal ≠ none) :
    (workerStep c w s).1 = w ∧ (workerStep c w s).2.f.wg = s.f.wg ∧
      (workerStep c w s).2.tasks = s.tasks ∧ w.phase.isDone = false := by
  obtain ⟨p, ph⟩ := w
  cases ph with
  | done => simp [workerStep, hs] at h'
  | start d =>
    cases hd : readDir d with
    | none => simp [workerStep, hd, printErr, Phase.isDone]
    | some cs => simp [workerStep, hd, hs] at h'
  | loop rest =>
    cases rest with
    | nil =>
      by_cases h0 : s.f.wg = 0
      · simp [workerStep, wgDone, h0, printErr, Phase.isDone]
      · simp [workerStep, wgDone, h0, hs] at h'
    | cons node rest =>
      cases hc : correspond c.re s.f node.entry with
      | error e => simp [workerStep, hc, printErr, addNbFiles, Phase.isDone]
      | ok b =>
        exfalso
        apply h'
        cases b <;> simp [workerStep, hc, spawn, wgAdd, printPath, addNbFiles, hs] <;>
          split <;> simp [hs]

/-- A step that ends the process leaves the counter, the caller and the
goroutines as they were. -/
theorem step_fatal_frame {c : Ctx} {s s' : State} {i : Nat} (h : step c s i = some s')
    (h' : s'.fatal ≠ none) :
    s'.f.wg = s.f.wg ∧ live s' = live s ∧ s'.main = s.main ∧ s'.tasks = s.tasks := by
  have hs := step_pre h
  unfold step at h
  simp only [hs, Option.isSome_none, Bool.false_eq_true, if_false] at h
  cases i with
  | zero =>
    simp only at h
    unfold stepMain at h
    cases hm : s.main with
    | checkReg =>
      simp only [hm] at h
      cases hc : checkRegIfNeed c.re s.f with
      | error e => simp [hc, printErr] at h; subst h; simp [live, hm]
      | ok u => simp [hc] at h; subst h; simp [hs] at h'
    | lstat =>
      simp only [hm] at h
      cases hr : c.root with
      | none => simp [hr, printErr] at h; subst h; simp [live, hm]
      | some d => simp [hr] at h; subst h; simp [hs, wgAdd] at h'
    | waiting =>
      simp only [hm] at h
      by_cases h0 : s.f.wg = 0
      · simp [h0, details] at h; subst h; simp [hs] at h'
      · simp [h0] at h
    | returned => simp [hm] at h
    | working w =>
      simp only [hm] at h
      have hf : (workerStep c w s).2.fatal ≠ none := by
        split at h <;> (simp at h; subst h; simpa using h')
      obtain ⟨h1, h2, h3, h4⟩ := workerStep_fatal_frame c w s hs hf
      simp only [h1, h4, Bool.false_eq_true, if_false, Option.some.injEq] at h
      subst h
      simp [live, hm, h2, h3]
  | succ k =>
    simp only at h
    unfold stepTask at h
    cases hk : s.tasks[k]? with
    | none => simp [hk] at h
    | some w =>
      simp only [hk] at h
      by_cases hw : w.phase.isDone = true
      · simp [hw] at h
      · have hw' : w.phase.isDone = false := by simpa using hw
        simp only [hw', Bool.false_eq_true, if_false, Option.some.injEq] at h
        subst h
        have hf : (workerStep c w s).2.fatal ≠ none := by simpa using h'
        obtain ⟨h1, h2, h3, -⟩ := workerStep_fatal_frame c w s hs hf
        have hset : s.tasks.set k w = s.tasks := by
          obtain ⟨l1, l2, hl, hlen⟩ := getElem?_split hk
          rw [hl, ← hlen]
          simpa using set_split l1 l2 w w []
        have hmain := workerStep_main c w s
        simp [live, h1, h2, h3, hset, hmain]

theorem containsChars_iff (s sub : List Char) : containsChars s sub = true ↔ sub <:+: s := by
  induction s with
  | nil =>
    cases sub <;> simp [containsChars]
  | cons c cs ih =>
    simp only [containsChars, Bool.or_eq_true, ih, List.isPrefixOf_iff_prefix]
    constructor
    · rintro (h | h)
      · exact h.isInfix
      · exact h.trans (List.infix_cons (List.infix_refl cs))
    · intro h
      rcases List.infix_cons_iff.1 h with h | h
      · exact Or.inl h
      · exact Or.inr h

theorem checkName_true_iff (re : RegexEngine) (f : find) (entry : DirEntry) :
    checkName re f entry = .ok true ↔
      ((f.opts.Regex = true ∧ ∃ m, re.compile f.searched = some m ∧ m entry.Name = true) ∨
        (f.opts.Regex = false ∧ f.searched.data <:+: entry.Name.data)) := by
  simp only [checkName, RegexEngine.matchString, stringsContains]
  cases hR : f.opts.Regex with
  | true =>
    simp only [if_true]
    cases hc : re.compile f.searched with
    | none => simp
    | some m => simp
  | false =>
    simp only [Bool.false_eq_true, if_false, false_and, false_or, true_and]
    rw [← containsChars_iff]
    split <;> simp_all

/-- C1. `correspond` returns true exactly when the kind of the entry is one the
options ask for (a directory with `Dir`, anything else with `File`) and the name
passes the text test (with `Regex`, the pattern compiles and the compiled
expression accepts the name; without, the name contains the pattern as a block of
consecutive characters).  The result is the same for two finders with the same
pattern and options; with `File` and `Dir` both set it is the result of
`checkName`, and with neither set it is false. -/
theorem correspond_spec (re : RegexEngine) (f : find) (entry : DirEntry) :
    (correspond re f entry = .ok true ↔
      ((entry.IsDir = true ∧ f.opts.Dir = true) ∨ (entry.IsDir = false ∧ f.opts.File = true)) ∧
      ((f.opts.Regex = true ∧ ∃ m, re.compile f.searched = some m ∧ m entry.Name = true) ∨
        (f.opts.Regex = false ∧ f.searched.data <:+: entry.Name.data))) ∧
    (∀ g : find, g.searched = f.searched → g.opts = f.opts →
      correspond re g entry = correspond re f entry) ∧
    (f.opts.File = true → f.opts.Dir = true → correspond re f entry = checkName re f entry) ∧
    (f.opts.File = false → f.opts.Dir = false → correspond re f entry = .ok false) := by
  refine ⟨?_, fun g hs ho => correspond_congr re hs ho entry, ?_, ?_⟩
  · rw [← checkName_true_iff]
    simp only [correspond]
    cases hF : f.opts.File <;> cases hD : f.opts.Dir <;> cases hI : entry.IsDir <;> simp
  · intro hF hD; simp [correspond, hF, hD]
  · intro hF hD; simp [correspond, hF, hD]

/-- C4. `New` fails exactly when the path is empty, the pattern is empty, or
neither `File` nor `Dir` is set; otherwise it returns the finder with the given
path, pattern and options and a count of zero.  A finder `New` returns has a
pattern that is not empty, and so has every state of a run started on it. -/
theorem New_spec (path searched : String) (opts : Options) :
    ((∃ e, New path searched opts = .error e) ↔
      (path = "" ∨ searched = "" ∨ (opts.File = false ∧ opts.Dir = false))) ∧
    (¬ (path = "" ∨ searched = "" ∨ (opts.File = false ∧ opts.Dir = false)) →
      New path searched opts =
        .ok { path := path, searched := searched, nbFiles := 0, opts := opts, wg := 0 }) ∧
    (∀ f, New path searched opts = .ok f →
      f.searched ≠ "" ∧
        ∀ (c : Ctx) (s : State), Reachable c f s → s.f.searched ≠ "") := by
  have key : New path searched opts =
      if path = "" then .error .needsLocation
      else if searched = "" then .error .needsValue
      else if opts.File = false ∧ opts.Dir = false then .error .needsKind
      else .ok { path := path, searched := searched, nbFiles := 0, opts := opts, wg := 0 } := by
    simp only [New, checkParamsAndOpts]
    by_cases h1 : path = ""
    · simp [h1]
    · by_cases h2 : searched = ""
      · simp [h1, h2]
      · cases hF : opts.File <;> cases hD : opts.Dir <;> simp [h1, h2]
  refine ⟨?_, ?_, ?_⟩
  · rw [key]
    by_cases h1 : path = ""
    · simp [h1]
    · by_cases h2 : searched = ""
      · simp [h1, h2]
      · by_cases h3 : opts.File = false ∧ opts.Dir = false
        · simp [h1, h2, h3]
        · simp [h1, h2, h3]
  · intro h
    rw [key]
    simp only [not_or] at h
    simp [h.1, h.2.1, h.2.2]
  · intro f hf
    have hs : f.searched ≠ "" := by
      rw [key] at hf
      by_cases h1 : path = ""
      · simp [h1] at hf
      · by_cases h2 : searched = ""
        · simp [h1, h2] at hf
        · by_cases h3 : opts.File = false ∧ opts.Dir = false
          · simp [h1, h2, h3] at hf
          · simp [h1, h2, h3] at hf
            subst hf
            exact h2
    refine ⟨hs, fun c s hr => ?_⟩
    rw [(reachable_static hr).2.1]
    exact hs

/-- C10. `checkRegIfNeed` fails exactly when `Regex` is set and the pattern does
not compile; when it passes, `checkName` returns a result for every entry: the
"Regex error" branch is not taken. -/
theorem checkReg_spec (re : RegexEngine) (f : find) :
    ((∃ e, checkRegIfNeed re f = .error e) ↔
      (f.opts.Regex = true ∧ re.compile f.searched = none)) ∧
    (checkRegIfNeed re f = .ok () ↔
      (f.opts.Regex = false ∨ ∃ m, re.compile f.searched = some m)) ∧
    (checkRegIfNeed re f = .ok () →
      ∀ entry, checkName re f entry ≠ .error .regexError ∧
        ∃ b, checkName re f entry = .ok b) := by
  refine ⟨?_, ?_, ?_⟩
  · simp only [checkRegIfNeed]
    cases hR : f.opts.Regex <;> cases hc : re.compile f.searched <;> simp
  · simp only [checkRegIfNeed]
    cases hR : f.opts.Regex <;> cases hc : re.compile f.searched <;> simp
  · intro h entry
    obtain ⟨b, hb⟩ := (correspond_ok_of_checkReg h entry).1
    exact ⟨by rw [hb]; simp, b, hb⟩

theorem run_reachable {c : Ctx} {f : find} :
    ∀ (fuel : Nat) (s : State), Reachable c f s → Reachable c f (run c fuel s) := by
  intro fuel
  induction fuel with
  | zero => intro s hr; exact hr
  | succ fuel ih =>
    intro s hr
    simp only [run]
    cases hnext : next c s with
    | none => exact hr
    | some s' => exact ih s' (Relation.ReflTransGen.tail hr (next_step hnext))

/-- The counter of the `WaitGroup` is the number of live workers in every state
of a run. -/
theorem wg_eq_live {c : Ctx} {f : find} (hn : f.nbFiles = 0) (hw : f.wg = 0) {s : State}
    (hr : Reachable c f s) :
    s.f.wg = live s ∧ ∀ w, s.main = .working w → w.phase.isDone = false := by
  by_cases hf : s.fatal = none
  · obtain ⟨hist, inv⟩ := (reachable_inv hn hw hr).1 hf
    exact ⟨inv.wg, inv.mainLive⟩
  · obtain ⟨-, -, s0, hist, i, inv, hi⟩ := (reachable_inv hn hw hr).2 hf
    obtain ⟨h1, h2, h3, -⟩ := step_fatal_frame hi hf
    refine ⟨by rw [h1, h2]; exact inv.wg, ?_⟩
    rw [h3]; exact inv.mainLive

/-- C9. In every state of a run the counter of the `WaitGroup` is the number of
calls of `worker` that are registered and have not returned (`live`); when it is
zero the caller is not inside `worker` and every goroutine has returned; the
caller gets past `wg.Wait()` only at counter zero; and once `Find` has returned
every goroutine has returned and no thread takes a step, so the state, with the
list of reports, stays as it is. -/
theorem waitGroup_spec (c : Ctx) (path searched : String) (opts : Options) (f : find)
    (hnew : New path searched opts = .ok f) (s : State) (hr : Reachable c f s) :
    s.f.wg = live s ∧
    (s.f.wg = 0 → (∀ w, s.main ≠ .working w) ∧ ∀ w ∈ s.tasks, w.phase.isDone = true) ∧
    (∀ s', stepMain c s = some s' → s'.main = .returned → s.main = .waiting ∧ s.f.wg = 0) ∧
    (s.main = .returned →
      (∀ w ∈ s.tasks, w.phase.isDone = true) ∧ (∀ i, step c s i = none) ∧
        ∀ s', Relation.ReflTransGen (Step c) s s' → s' = s) := by
  obtain ⟨hn, hw, -⟩ := New_fresh hnew
  obtain ⟨hwg, hml⟩ := wg_eq_live hn hw hr
  have hzero : s.f.wg = 0 → (∀ w, s.main ≠ .working w) ∧ ∀ w ∈ s.tasks, w.phase.isDone = true := by
    intro h0
    rw [h0] at hwg
    have hl : live s = 0 := hwg.symm
    simp only [live, Nat.add_eq_zero, List.countP_eq_zero] at hl
    refine ⟨?_, ?_⟩
    · intro w hm
      have := hml w hm
      simp [hm, this] at hl
    · intro w hmem
      simpa using hl.2 w hmem
  have hret : s.main = .returned → s.f.wg = 0 := by
    intro hm
    have hf : s.fatal = none := by
      by_contra hf
      exact ((reachable_inv hn hw hr).2 hf).2.1 hm
    obtain ⟨hist, inv⟩ := (reachable_inv hn hw hr).1 hf
    exact (inv.returned hm).1
  refine ⟨hwg, hzero, ?_, ?_⟩
  · intro s' hs' hm'
    unfold stepMain at hs'
    cases hm : s.main with
    | checkReg => simp only [hm] at hs'; split at hs' <;> (simp [printErr] at hs'; subst hs'; simp [hm] at hm')
    | lstat => simp only [hm] at hs'; split at hs' <;> (simp [printErr] at hs'; subst hs'; simp [hm] at hm')
    | working w => simp only [hm] at hs'; split at hs' <;> (simp at hs'; subst hs'; simp at hm')
    | waiting =>
      simp only [hm] at hs'
      split at hs'
      · exact ⟨rfl, ‹s.f.wg = 0›⟩
      · cases hs'
    | returned => simp [hm] at hs'
  · intro hm
    have h0 := hret hm
    have hno : ∀ i, step c s i = none := no_step_returned hm hwg h0
    refine ⟨(hzero h0).2, hno, ?_⟩
    intro s' hs'
    induction hs' using Relation.ReflTransGen.head_induction_on with
    | refl => rfl
    | head hstep _ _ =>
      obtain ⟨i, hi⟩ := hstep
      rw [hno i] at hi; cases hi

/-- An instance of C9: after five steps of the run of scenario 1 the caller is
in the loop of `worker`, one goroutine waits to start, and the counter is 2. -/
theorem waitGroup_spec_witness :
    (run scenarioCtx 5 (init scenario1)).f.wg = 2 ∧
      live (run scenarioCtx 5 (init scenario1)) = 2 := by
  have h := waitGroup_spec scenarioCtx "/root" "a" filesOnly scenario1 rfl
    (run scenarioCtx 5 (init scenario1)) (run_reachable 5 _ Relation.ReflTransGen.refl)
  refine ⟨by decide, ?_⟩
  rw [← h.1]
  decide

theorem fullEvents_blocked (c : Ctx) :
    (fullEvents c).countP Event.isBlocked =
      match c.root with
      | none => 1
      | some d => blockedIn d := by
  cases hr : c.root with
  | none => simp [fullEvents, hr, rootEvents, Event.isBlocked]
  | some d => simp [fullEvents, hr, rootEvents, dirEvents_blocked]

theorem fullEvents_visits {c : Ctx} {root : Node} (hr : c.root = some root) :
    (fullEvents c).filterMap Event.asVisit = visitedIn [] root := by
  simp [fullEvents, hr, rootEvents, dirEvents_visits]

/-- In every state of a run the reports are those of some of the events of the
walk, none of them a directory that cannot be opened. -/
theorem reachable_out {c : Ctx} {f : find} (hn : f.nbFiles = 0) (hw : f.wg = 0) {s : State}
    (hr : Reachable c f s) :
    ∃ hist : List Event, hist.Subperm (fullEvents c) ∧ s.out = hist.filterMap (reportOf c.re f) := by
  have key : ∀ s0 hist, Inv c f s0 hist →
      hist.Subperm (fullEvents c) ∧ s0.out = hist.filterMap (reportOf c.re f) := by
    intro s0 hist inv
    exact ⟨(List.sublist_append_left hist _).subperm.trans inv.events.subperm, inv.out⟩
  by_cases hf : s.fatal = none
  · obtain ⟨hist, inv⟩ := (reachable_inv hn hw hr).1 hf
    exact ⟨hist, key s hist inv⟩
  · obtain ⟨-, -, s0, hist, i, inv, hi⟩ := (reachable_inv hn hw hr).2 hf
    obtain ⟨⟨-, h2, -⟩, -⟩ := step_fatal hi hf
    exact ⟨hist, (key s0 hist inv).1, h2.trans (key s0 hist inv).2⟩

/-- C8. Every run of `Find` ends: it takes at most `measure` steps and a state
that is not final has a next step.  When `os.Lstat` fails on the root, or a
directory the worker is started on (the root, or one reached through directories
that are not hidden) cannot be opened or listed, every final state is one in
which the process has exited, and `details` has printed nothing; in any state in
which the process has exited `details` has printed nothing.  When the root
exists, `checkRegIfNeed` passes and every such directory can be listed, the
process never exits, every final state is one in which `Find` has returned, and
the run under the scheduler `next` reaches one. -/
theorem find_fatal_spec (c : Ctx) (path searched : String) (opts : Options) (f : find)
    (hnew : New path searched opts = .ok f) :
    (∀ n s, StepsN c n (init f) s → n ≤ measure c (init f)) ∧
    (∀ s, Reachable c f s → ¬ Final s → ∃ s', Step c s s') ∧
    ((c.root = none ∨ ∃ root, c.root = some root ∧ 0 < blockedIn root) →
      ∀ s, Reachable c f s → Final s → s.fatal ≠ none ∧ s.summary = none) ∧
    (∀ s, Reachable c f s → s.fatal ≠ none → s.summary = none) ∧
    (∀ root, c.root = some root → blockedIn root = 0 → checkRegIfNeed c.re f = .ok () →
      (∀ s, Reachable c f s → s.fatal = none) ∧
      (∀ s, Reachable c f s → Final s → s.main = .returned) ∧
      (run c (measure c (init f)) (init f)).main = .returned) := by
  obtain ⟨hn, hw, -⟩ := New_fresh hnew
  refine ⟨?_, ?_, ?_, ?_, ?_⟩
  · intro n s h
    have := stepsN_bounded h
    omega
  · intro s hr hnf
    simp only [Final, not_or, not_not] at hnf
    obtain ⟨hist, inv⟩ := (reachable_inv hn hw hr).1 hnf.1
    obtain ⟨i, s', hs'⟩ := progress inv hnf.1 hnf.2
    exact ⟨s', i, hs'⟩
  · intro hbad s hr hfin
    have hf : s.fatal ≠ none := by
      intro hf
      rcases hfin with hfin | hfin
      · exact hfin hf
      · obtain ⟨-, hist, inv, hperm⟩ := returned_inv hn hw hr hfin
        have h0 : (fullEvents c).countP Event.isBlocked = 0 := by
          rw [← hperm.countP_eq, List.countP_eq_zero]
          intro ev hev
          simp [inv.notBlocked ev hev]
        rw [fullEvents_blocked] at h0
        rcases hbad with hbad | ⟨root, hroot, hpos⟩
        · simp [hbad] at h0
        · simp [hroot] at h0
          omega
    exact ⟨hf, ((reachable_inv hn hw hr).2 hf).1⟩
  · intro s hr hf
    exact ((reachable_inv hn hw hr).2 hf).1
  · intro root hroot hb hreg
    have hb' : (fullEvents c).countP Event.isBlocked = 0 := by
      rw [fullEvents_blocked, hroot]; exact hb
    refine ⟨fun s hr => never_fatal hn hw hreg hb' hr, ?_, run_returns hn hw hreg hb'⟩
    intro s hr hfin
    rcases hfin with hfin | hfin
    · exact (hfin (never_fatal hn hw hreg hb' hr)).elim
    · exact hfin

/-- An instance of C8: with a root that does not exist the run ends with the
error "Invalid path", without a report and without a summary. -/
theorem find_fatal_spec_witness :
    (run noRootCtx 10 (init scenario1)).fatal = some .invalidPath ∧
      (run noRootCtx 10 (init scenario1)).out = [] ∧
      (run noRootCtx 10 (init scenario1)).summary = none := by
  have h := (find_fatal_spec noRootCtx "/root" "a" filesOnly scenario1 rfl).2.2.1
    (Or.inl rfl) (run noRootCtx 10 (init scenario1))
    (run_reachable 10 _ Relation.ReflTransGen.refl) (Or.inl (by decide))
  exact ⟨by decide, by decide, h.2⟩

theorem visited_files {α : Type} (p : List String) (g : α → String) (xs : List α) :
    (visited p (xs.map (fun i => Node.file (g i)))).length = xs.length := by
  induction xs with
  | nil => simp [visited]
  | cons x xs ih => simp [visited, descends, Node.entry, ih]

theorem blocked_files {α : Type} (g : α → String) (xs : List α) :
    blockedAmong (xs.map (fun i => Node.file (g i))) = 0 := by
  induction xs with
  | nil => simp [blockedAmong]
  | cons x xs ih => simp [blockedAmong, descends, Node.entry, ih]

/-- When `Find` has returned, `nbFiles` is the number of listing items of the
walk modulo 2^32. -/
theorem returned_nbFiles {c : Ctx} {f : find} {root : Node} (hn : f.nbFiles = 0)
    (hw : f.wg = 0) (hroot : c.root = some root) {s : State} (hr : Reachable c f s)
    (hm : s.main = .returned) :
    s.f.nbFiles = (visitedIn [] root).length % 2 ^ 32 ∧
      s.summary = if f.opts.Bench then some s.f.nbFiles else none := by
  obtain ⟨-, hist, inv, hperm⟩ := returned_inv hn hw hr hm
  refine ⟨?_, (inv.returned hm).2⟩
  rw [inv.nbFiles, hperm.countP_eq, countP_isVisit, fullEvents_visits hroot]

/-- C2 (amended). When `Find` has returned, `nbFiles` is the number of listing
items the walk came to, counted modulo 2^32 (each entry of the root and of every
directory reached through directories that are not hidden, once), and `details`
prints that number when `Bench` is set; it is the number itself when that is less
than 2^32.  With a pattern that passes `checkRegIfNeed` and no directory that
fails to open, the run under the scheduler `next` ends with `Find` returned. -/
theorem nbFiles_spec (c : Ctx) (path searched : String) (opts : Options) (f : find)
    (root : Node) (hnew : New path searched opts = .ok f) (hroot : c.root = some root) :
    (∀ s, Reachable c f s → s.main = .returned →
      s.f.nbFiles = (visitedIn [] root).length % 2 ^ 32 ∧
        s.summary = if opts.Bench then some s.f.nbFiles else none) ∧
    ((visitedIn [] root).length < 2 ^ 32 →
      ∀ s, Reachable c f s → s.main = .returned → s.f.nbFiles = (visitedIn [] root).length) ∧
    (checkRegIfNeed c.re f = .ok () → blockedIn root = 0 →
      (run c (measure c (init f)) (init f)).main = .returned) := by
  obtain ⟨hn, hw, -, -, ho⟩ := New_fresh hnew
  have key : ∀ s, Reachable c f s → s.main = .returned →
      s.f.nbFiles = (visitedIn [] root).length % 2 ^ 32 ∧
        s.summary = if opts.Bench then some s.f.nbFiles else none := by
    intro s hr hm
    have := returned_nbFiles hn hw hroot hr hm
    rw [ho] at this
    exact this
  refine ⟨key, ?_, ?_⟩
  · intro hlt s hr hm
    rw [(key s hr hm).1, Nat.mod_eq_of_lt hlt]
  · intro hreg hb
    exact run_returns hn hw hreg (by rw [fullEvents_blocked, hroot]; exact hb)

/-- An instance of C2: on the tree `a.txt`, `b/`, `b/a.txt` the count is 3. -/
theorem nbFiles_spec_witness :
    (run scenarioCtx 20 (init scenario1)).main = .returned ∧
      (run scenarioCtx 20 (init scenario1)).f.nbFiles = 3 ∧
      (run scenarioCtx 20 (init scenario1)).summary = some 3 := by
  have hm : (run scenarioCtx 20 (init scenario1)).main = .returned := by rfl
  have h := (nbFiles_spec scenarioCtx "/root" "a" filesOnly scenario1 scenarioTree rfl rfl).2.1
    (by decide) (run scenarioCtx 20 (init scenario1))
    (run_reachable 20 _ Relation.ReflTransGen.refl) hm
  exact ⟨hm, h.trans (by decide), by decide⟩

/-- C2, where the count is not exact: in a directory of 2^32 files the walk comes
to 2^32 listing items, `Find` returns, and `nbFiles` is 0. -/
theorem nbFiles_wraps :
    (visitedIn [] bigTree).length = 2 ^ 32 ∧
      (run bigCtx (measure bigCtx (init scenario1)) (init scenario1)).main = .returned ∧
      (run bigCtx (measure bigCtx (init scenario1)) (init scenario1)).f.nbFiles = 0 := by
  have hlen : (visitedIn [] bigTree).length = 2 ^ 32 := by
    rw [bigTree, visitedIn, if_pos rfl, visited_files, List.length_range]
  have hb : blockedIn bigTree = 0 := by
    rw [bigTree, blockedIn, if_pos rfl, blocked_files]
  have hret : (run bigCtx (measure bigCtx (init scenario1)) (init scenario1)).main = .returned :=
    run_returns rfl rfl rfl (by rw [fullEvents_blocked]; exact hb)
  have hcount := (returned_nbFiles (c := bigCtx) (f := scenario1) rfl rfl rfl
    (run_reachable _ _ Relation.ReflTransGen.refl) hret).1
  refine ⟨hlen, hret, ?_⟩
  rw [hcount, hlen]
  exact Nat.mod_self _

mutual
theorem blockedIn_of_readable :
    ∀ d : Node, allReadableIn d = true → d.entry.IsDir = true → blockedIn d = 0
  | .file _ => by simp [Node.entry]
  | .dir _ _ r cs => by
    intro h _
    simp only [allReadableIn, Bool.and_eq_true] at h
    simp [blockedIn, h.1, blockedAmong_of_readable cs h.2]
theorem blockedAmong_of_readable :
    ∀ l : List Node, allReadable l = true → blockedAmong l = 0
  | [] => by simp [blockedAmong]
  | node :: rest => by
    intro h
    simp only [allReadable, Bool.and_eq_true] at h
    simp only [blockedAmong, blockedAmong_of_readable rest h.2, add_zero]
    split
    · rename_i hd
      simp only [descends, Bool.and_eq_true] at hd
      exact blockedIn_of_readable node h.1 hd.1
    · rfl
end

theorem corresponds_false_of_checkReg {re : RegexEngine} {f : find} {err : Fatal}
    (h : checkRegIfNeed re f = .error err) (e : DirEntry) : corresponds re f e = false := by
  have hR : f.opts.Regex = true ∧ re.compile f.searched = none := by
    simp only [checkRegIfNeed] at h
    cases hR : f.opts.Regex <;> cases hc : re.compile f.searched <;> simp_all
  have hcn : checkName re f e = .error .regexError := by
    simp [checkName, RegexEngine.matchString, hR.1, hR.2]
  simp only [corresponds, correspond, hcn]
  cases f.opts.File <;> cases f.opts.Dir <;> cases e.IsDir <;> simp

theorem checkReg_cases (re : RegexEngine) (f : find) :
    checkRegIfNeed re f = .ok () ∨ ∃ err, checkRegIfNeed re f = .error err := by
  cases h : checkRegIfNeed re f with
  | ok u => exact Or.inl rfl
  | error e => exact Or.inr ⟨e, rfl⟩

theorem map_reportEntry (re : RegexEngine) (f : find) (l : List (List String × Node)) :
    (l.filterMap (reportEntry re f)).map (fun r => (r.dirPath, r.entry)) =
      (l.filter (fun x => corresponds re f x.2.entry)).map (fun x => (x.1, x.2.entry)) := by
  induction l with
  | nil => simp
  | cons x l ih =>
    cases hc : corresponds re f x.2.entry <;>
      simp [List.filterMap_cons, List.filter_cons, reportEntry, hc, ih]

/-- When `Find` has returned, the reports are, in some order, those of the
entries the walk came to. -/
theorem returned_out {c : Ctx} {f : find} {root : Node} (hn : f.nbFiles = 0)
    (hw : f.wg = 0) (hroot : c.root = some root) {s : State} (hr : Reachable c f s)
    (hm : s.main = .returned) :
    s.out.Perm ((visitedIn [] root).filterMap (reportEntry c.re f)) := by
  obtain ⟨-, hist, inv, hperm⟩ := returned_inv hn hw hr hm
  rw [inv.out, ← fullEvents_visits hroot, ← filterMap_reportOf]
  exact hperm.filterMap _

/-- In every state of a run the reports are among those of the entries the walk
comes to. -/
theorem out_subperm {c : Ctx} {f : find} {root : Node} (hn : f.nbFiles = 0)
    (hw : f.wg = 0) (hroot : c.root = some root) {s : State} (hr : Reachable c f s) :
    s.out.Subperm ((visitedIn [] root).filterMap (reportEntry c.re f)) := by
  obtain ⟨hist, hsub, hout⟩ := reachable_out hn hw hr
  rw [hout, ← fullEvents_visits hroot, ← filterMap_reportOf]
  obtain ⟨l, hl1, hl2⟩ := hsub
  exact ⟨l.filterMap (reportOf c.re f), hl1.filterMap _, hl2.filterMap _⟩

/-- In a tree without hidden directories in which every directory can be
listed, a run in which the process exits reports nothing, and no entry
corresponds. -/
theorem fatal_out {c : Ctx} {f : find} {root : Node} (hn : f.nbFiles = 0)
    (hw : f.wg = 0) (hroot : c.root = some root) (hread : allReadableIn root = true)
    {s : State} (hr : Reachable c f s) (hf : s.fatal ≠ none) :
    s.out = [] ∧ (belowIn [] root).filter (fun x => corresponds c.re f x.2.entry) = [] := by
  obtain ⟨-, -, s0, hist, i, inv, hi⟩ := (reachable_inv hn hw hr).2 hf
  obtain ⟨-, hcause⟩ := step_fatal hi hf
  have hsub := out_subperm hn hw hroot hr
  have hcfg := checkRegIfNeed_congr c.re inv.searched inv.opts
  have hbadreg : ∀ err, checkRegIfNeed c.re f = .error err →
      s.out = [] ∧ (belowIn [] root).filter (fun x => corresponds c.re f x.2.entry) = [] := by
    intro err herr
    have hc := corresponds_false_of_checkReg herr
    have h1 : (visitedIn [] root).filterMap (reportEntry c.re f) = [] := by
      rw [List.filterMap_eq_nil_iff]
      intro x _
      simp [reportEntry, hc]
    rw [h1] at hsub
    exact ⟨List.subperm_nil.1 hsub, by rw [List.filter_eq_nil_iff]; intro x _; simp [hc]⟩
  rcases hcause with ⟨err, h1⟩ | h1 | h1 | ⟨e, err, h1⟩ | ⟨h1, h2⟩
  · rw [hcfg] at h1
    exact hbadreg err h1
  · rw [hroot] at h1; cases h1
  · have hmem : Event.blocked ∈ fullEvents c :=
      inv.events.mem_iff.1 (List.mem_append_right _ h1)
    have hpos : 0 < (fullEvents c).countP Event.isBlocked :=
      List.countP_pos_iff.2 ⟨_, hmem, rfl⟩
    rw [fullEvents_blocked, hroot] at hpos
    simp only at hpos
    cases root with
    | dir n h r cs =>
      have := blockedIn_of_readable _ hread rfl
      omega
    | file n =>
      simp only [visitedIn, List.filterMap_nil] at hsub
      exact ⟨List.subperm_nil.1 hsub, by simp [belowIn]⟩
  · rw [correspond_congr c.re inv.searched inv.opts] at h1
    rcases checkReg_cases c.re f with hok | ⟨err', herr⟩
    · obtain ⟨b, hb⟩ := (correspond_ok_of_checkReg hok e).2
      rw [hb] at h1; cases h1
    · exact hbadreg err' herr
  · have := inv.wg
    omega

/-- The loop of `worker` starts a goroutine on every directory that is not
hidden, whatever `correspond` returns for it. -/
theorem workerStep_descends (c : Ctx) (dirPath : List String) (node : Node) (rest : List Node)
    (s : State) (b : Bool) (hd : descends node = true)
    (hc : correspond c.re s.f node.entry = .ok b) :
    (workerStep c ⟨dirPath, .loop (node :: rest)⟩ s).2.tasks =
        s.tasks ++ [⟨dirPath ++ [node.entry.Name], .start node⟩] ∧
      (workerStep c ⟨dirPath, .loop (node :: rest)⟩ s).2.f.wg = s.f.wg + 1 := by
  have hd' : (node.entry.IsDir && !isHidden node) = true := hd
  cases b <;> simp [workerStep, hc, hd', spawn, wgAdd, printPath, addNbFiles]

/-- C5. In a tree without hidden directories in which every directory can be
listed, the entries reported when a run has ended are, each once, the entries
strictly below the root, at any depth, for which `correspond` returns true.  The
loop of `worker` starts a goroutine on every directory that is not hidden,
whatever `correspond` returns for it, and the run under the scheduler `next`
comes to its end. -/
theorem reports_spec (c : Ctx) (path searched : String) (opts : Options) (f : find)
    (root : Node) (hnew : New path searched opts = .ok f) (hroot : c.root = some root)
    (hh : noHiddenIn root = true) (hread : allReadableIn root = true) :
    (∀ s, Reachable c f s → Final s →
      (s.out.map (fun r => (r.dirPath, r.entry))).Perm
        (((belowIn [] root).filter (fun x => corresponds c.re f x.2.entry)).map
          (fun x => (x.1, x.2.entry)))) ∧
    (∀ (dirPath : List String) (node : Node) (rest : List Node) (s : State) (b : Bool),
      descends node = true → correspond c.re s.f node.entry = .ok b →
      (workerStep c ⟨dirPath, .loop (node :: rest)⟩ s).2.tasks =
        s.tasks ++ [⟨dirPath ++ [node.entry.Name], .start node⟩]) ∧
    Final (run c (measure c (init f)) (init f)) := by
  obtain ⟨hn, hw, -⟩ := New_fresh hnew
  refine ⟨?_, ?_, ?_⟩
  · intro s hr hfin
    by_cases hf : s.fatal = none
    · have hm : s.main = .returned := by
        rcases hfin with h | h
        · exact (h hf).elim
        · exact h
      have h1 := returned_out hn hw hroot hr hm
      rw [visitedIn_eq_belowIn [] root hh hread] at h1
      have h2 := h1.map (fun r => (r.dirPath, r.entry))
      rwa [map_reportEntry] at h2
    · obtain ⟨h1, h2⟩ := fatal_out hn hw hroot hread hr hf
      rw [h1, h2]
      exact List.Perm.refl _
  · intro dirPath node rest s b hd hc
    exact (workerStep_descends c dirPath node rest s b hd hc).1
  · exact (run_final hn hw _ _ Relation.ReflTransGen.refl (le_refl _)).2

/-- An instance of C5: scenario 1 (pattern `a`, files only) reports `a.txt` and
`b/a.txt`. -/
theorem reports_spec_witness :
    ((run scenarioCtx 20 (init scenario1)).out.map (fun r => (r.dirPath, r.entry))).Perm
      [([], ⟨"a.txt", false⟩), (["b"], ⟨"a.txt", false⟩)] :=
  (reports_spec scenarioCtx "/root" "a" filesOnly scenario1 scenarioTree rfl rfl rfl rfl).1
    (run scenarioCtx 20 (init scenario1)) (run_reachable 20 _ Relation.ReflTransGen.refl)
    (Or.inr rfl)

theorem readDir_prune (d : Node) : readDir d.prune = (readDir d).map pruneList := by
  cases d with
  | file n => simp [Node.prune, readDir]
  | dir n h r cs => cases r <;> simp [Node.prune, readDir]

theorem prune_head (node : Node) :
    (if isHidden node then node.emptied else node.prune).entry = node.entry ∧
      isHidden (if isHidden node then node.emptied else node.prune) = isHidden node := by
  cases node with
  | file n => simp [isHidden, Node.prune, Node.entry]
  | dir n h r cs => cases h <;> simp [isHidden, Node.prune, Node.emptied, Node.entry]

theorem isDone_prune (ph : Phase) : ph.prune.isDone = ph.isDone := by
  cases ph <;> simp [Phase.prune, Phase.isDone]

theorem workerStep_prune (c : Ctx) (w : Worker) (s : State) :
    workerStep c.prune w.prune s.prune =
      ((workerStep c w s).1.prune, (workerStep c w s).2.prune) := by
  obtain ⟨p, ph⟩ := w
  cases ph with
  | done => simp [workerStep, Worker.prune, Phase.prune]
  | start d =>
    cases hd : readDir d with
    | none =>
      simp [workerStep, Worker.prune, Phase.prune, readDir_prune, hd, printErr, State.prune]
    | some cs =>
      simp [workerStep, Worker.prune, Phase.prune, readDir_prune, hd, printErr, State.prune]
  | loop rest =>
    cases rest with
    | nil =>
      by_cases h0 : s.f.wg = 0 <;>
        simp [workerStep, Worker.prune, Phase.prune, pruneList, wgDone, h0, printErr,
          State.prune]
    | cons node rest =>
      obtain ⟨he, hh⟩ := prune_head node
      simp only [workerStep, Worker.prune, Phase.prune, pruneList, he, hh]
      have hre : c.prune.re = c.re := rfl
      have hf : s.prune.f = s.f := rfl
      rw [hre, hf]
      have he2 : isHidden node = false → node.prune.entry = node.entry := by
        intro h; simpa [h] using he
      cases hhid : isHidden node <;> cases hdir : node.entry.IsDir <;>
        cases hc : correspond c.re s.f node.entry with
        | error e => simp [printErr, addNbFiles, State.prune, pruneList, hhid]
        | ok b =>
          cases b <;>
            simp [printErr, addNbFiles, State.prune, spawn, wgAdd, printPath, Worker.prune,
              Phase.prune, he, pruneList, hhid, he2]

theorem stepMain_prune (c : Ctx) (s : State) :
    stepMain c.prune s.prune = (stepMain c s).map State.prune := by
  unfold stepMain
  cases hm : s.main with
  | checkReg =>
    have : s.prune.main = .checkReg := by simp [State.prune, hm, MainPhase.prune]
    simp only [this]
    have hre : c.prune.re = c.re := rfl
    have hf : s.prune.f = s.f := rfl
    rw [hre, hf]
    cases checkRegIfNeed c.re s.f <;> simp [printErr, State.prune, hm, MainPhase.prune]
  | lstat =>
    have : s.prune.main = .lstat := by simp [State.prune, hm, MainPhase.prune]
    simp only [this]
    cases hr : c.root with
    | none => simp [Ctx.prune, hr, printErr, State.prune, hm, MainPhase.prune]
    | some d =>
      simp [Ctx.prune, hr, printErr, State.prune, hm, MainPhase.prune, wgAdd, Worker.prune,
        Phase.prune]
  | waiting =>
    have : s.prune.main = .waiting := by simp [State.prune, hm, MainPhase.prune]
    simp only [this]
    have hf : s.prune.f = s.f := rfl
    rw [hf]
    split <;> simp [details, State.prune, hm, MainPhase.prune]
  | returned =>
    have : s.prune.main = .returned := by simp [State.prune, hm, MainPhase.prune]
    simp [this]
  | working w =>
    have : s.prune.main = .working w.prune := by simp [State.prune, hm, MainPhase.prune]
    simp only [this, workerStep_prune]
    have hd : (workerStep c w s).1.prune.phase.isDone = (workerStep c w s).1.phase.isDone := by
      simp [Worker.prune, isDone_prune]
    rw [hd]
    split <;> simp [State.prune, MainPhase.prune]

theorem stepTask_prune (c : Ctx) (s : State) (k : Nat) :
    stepTask c.prune s.prune k = (stepTask c s k).map State.prune := by
  unfold stepTask
  have hk : s.prune.tasks[k]? = (s.tasks[k]?).map Worker.prune := by
    simp [State.prune, List.getElem?_map]
  rw [hk]
  cases hw : s.tasks[k]? with
  | none => simp
  | some w =>
    simp only [Option.map_some', workerStep_prune]
    have hd : w.prune.phase.isDone = w.phase.isDone := by simp [Worker.prune, isDone_prune]
    rw [hd]
    split
    · simp
    · simp [State.prune, List.map_set]

/-- A step in the tree is a step in the tree with the hidden directories
emptied. -/
theorem step_prune (c : Ctx) (s : State) (i : Nat) :
    step c.prune s.prune i = (step c s i).map State.prune := by
  unfold step
  have hf : s.prune.fatal = s.fatal := rfl
  rw [hf]
  split
  · simp
  · cases i with
    | zero => exact stepMain_prune c s
    | succ k => exact stepTask_prune c s k

theorem reachable_prune {c : Ctx} {f : find} {s : State} (hr : Reachable c f s) :
    Reachable c.prune f s.prune := by
  induction hr with
  | refl => exact Relation.ReflTransGen.refl
  | tail _ hstep ih =>
    obtain ⟨i, hi⟩ := hstep
    refine Relation.ReflTransGen.tail ih ⟨i, ?_⟩
    rw [step_prune, hi]
    rfl

mutual
theorem belowIn_prune (p : List String) :
    ∀ d : Node, ∀ x ∈ belowIn p d.prune, isHidden x.2 = true → ∀ q, belowIn q x.2 = []
  | .file _ => by simp [Node.prune, belowIn]
  | .dir _ _ _ cs => by
    simp only [Node.prune, belowIn]
    exact below_prune p cs
theorem below_prune (p : List String) :
    ∀ l : List Node, ∀ x ∈ below p (pruneList l), isHidden x.2 = true → ∀ q, belowIn q x.2 = []
  | [] => by simp [pruneList, below]
  | node :: rest => by
    intro x hx hhid
    simp only [pruneList, below, List.mem_cons, List.mem_append] at hx
    rcases hx with hx | hx | hx
    · subst hx
      cases node with
      | file n => simp [isHidden, Node.prune] at hhid
      | dir n h r cs =>
        cases h
        · simp [isHidden, Node.prune] at hhid
        · simp [isHidden, Node.emptied, belowIn, below]
    · cases hn : isHidden node with
      | true =>
        rw [hn] at hx
        cases node with
        | file n => simp [Node.emptied, belowIn] at hx
        | dir n h r cs => simp [Node.emptied, belowIn, below] at hx
      | false =>
        rw [hn] at hx
        simp only [Bool.false_eq_true, if_false] at hx
        exact belowIn_prune _ node x hx hhid
    · exact below_prune p rest x hx hhid
end

/-- No goroutine is started on a hidden directory. -/
theorem tasks_not_hidden {c : Ctx} {f : find} (hn : f.nbFiles = 0) (hw : f.wg = 0) {s : State}
    (hr : Reachable c f s) : ∀ w ∈ s.tasks, ∀ d, w.phase = .start d → isHidden d = false := by
  by_cases hf : s.fatal = none
  · obtain ⟨hist, inv⟩ := (reachable_inv hn hw hr).1 hf
    exact inv.starts
  · obtain ⟨-, -, s0, hist, i, inv, hi⟩ := (reachable_inv hn hw hr).2 hf
    obtain ⟨-, -, -, h4⟩ := step_fatal_frame hi hf
    rw [h4]
    exact inv.starts

/-- C3 (amended). Hidden directories strictly below the search root are not
walked: every state of a run is, with the same finder (and count), reports,
error and summary, a state of the run over the tree in which every hidden
directory strictly below the root is emptied, a tree in which no entry lies
beneath such a directory; no goroutine is ever about to start on a hidden
directory; and the reports are among those of the entries reached from the root
through directories that are not hidden (`visitedIn`).  The root itself is walked
whether it is hidden or not. -/
theorem hidden_spec (c : Ctx) (path searched : String) (opts : Options) (f : find)
    (hnew : New path searched opts = .ok f) (s : State) (hr : Reachable c f s) :
    (Reachable c.prune f s.prune ∧ s.prune.f = s.f ∧ s.prune.out = s.out ∧
      s.prune.fatal = s.fatal ∧ s.prune.summary = s.summary) ∧
    (∀ root, c.prune.root = some root →
      ∀ x ∈ belowIn [] root, isHidden x.2 = true → ∀ q, belowIn q x.2 = []) ∧
    (∀ w ∈ s.tasks, ∀ d, w.phase = .start d → isHidden d = false) ∧
    (∀ root, c.root = some root →
      s.out.Subperm ((visitedIn [] root).filterMap (reportEntry c.re f))) := by
  obtain ⟨hn, hw, -⟩ := New_fresh hnew
  refine ⟨⟨reachable_prune hr, rfl, rfl, rfl, rfl⟩, ?_, tasks_not_hidden hn hw hr,
    fun root hroot => out_subperm hn hw hroot hr⟩
  intro root hroot x hx hhid
  cases hc : c.root with
  | none => simp [Ctx.prune, hc] at hroot
  | some d =>
    simp only [Ctx.prune, hc, Option.map_some', Option.some.injEq] at hroot
    subst hroot
    exact belowIn_prune [] d x hx hhid

/-- An instance of C3: with `b` hidden the run of scenario 1 counts `a.txt` and
`b`, reports `a.txt` only, and is a run over the tree in which `b` is empty. -/
theorem hidden_spec_witness :
    Reachable hiddenCtx.prune scenario1 (run hiddenCtx 20 (init scenario1)).prune ∧
      (run hiddenCtx 20 (init scenario1)).main = .returned ∧
      (run hiddenCtx 20 (init scenario1)).f.nbFiles = 2 ∧
      (run hiddenCtx 20 (init scenario1)).out = [⟨[], ⟨"a.txt", false⟩, .FgGreen⟩] :=
  ⟨(hidden_spec hiddenCtx "/root" "a" filesOnly scenario1 rfl _
      (run_reachable 20 _ Relation.ReflTransGen.refl)).1.1, rfl, by decide, by decide⟩

/-- C3, a hidden directory that is walked: the root is hidden, and the entry
`a.txt` beneath it is counted and reported. -/
theorem hidden_root_walked :
    isHidden hiddenRoot = true ∧
      (run hiddenRootCtx 20 (init scenario1)).main = .returned ∧
      (run hiddenRootCtx 20 (init scenario1)).f.nbFiles = 1 ∧
      (run hiddenRootCtx 20 (init scenario1)).out = [⟨[], ⟨"a.txt", false⟩, .FgGreen⟩] :=
  ⟨rfl, rfl, by decide, by decide⟩

/-- C7 (amended). On the tree `a.txt`, `b/`, `b/a.txt` with the pattern `^a\.`
as a regular expression and files and directories asked for, a library that
accepts the name `a.txt` and rejects the name `b` for this pattern makes the walk
report both `a.txt` at the top and `b/a.txt`, and nothing else: the pattern is
tested on the name of an entry, not on its path.  The run under the scheduler
`next` ends with `Find` returned. -/
theorem scenario2_spec (re : RegexEngine) (m : String → Bool)
    (hm : re.compile "^a\\." = some m) (ha : m "a.txt" = true) (hb : m "b" = false) :
    (∀ s, Reachable ⟨re, some scenarioTree⟩ scenario2 s → s.main = .returned →
      s.out.Perm [⟨[], ⟨"a.txt", false⟩, .FgGreen⟩, ⟨["b"], ⟨"a.txt", false⟩, .FgGreen⟩]) ∧
    (run ⟨re, some scenarioTree⟩ (measure ⟨re, some scenarioTree⟩ (init scenario2))
      (init scenario2)).main = .returned := by
  have hreg : checkRegIfNeed re scenario2 = .ok () := by
    simp [checkRegIfNeed, scenario2, bothRegex, hm]
  have hca : corresponds re scenario2 ⟨"a.txt", false⟩ = true := by
    simp [corresponds, correspond, checkName, RegexEngine.matchString, scenario2, bothRegex, hm,
      ha]
  have hcb : corresponds re scenario2 ⟨"b", true⟩ = false := by
    simp [corresponds, correspond, checkName, RegexEngine.matchString, scenario2, bothRegex, hm,
      hb]
  refine ⟨?_, ?_⟩
  · intro s hr hret
    have h := returned_out (c := ⟨re, some scenarioTree⟩) (f := scenario2) rfl rfl rfl hr hret
    have hv : visitedIn [] scenarioTree =
        [([], .file "a.txt"), ([], .dir "b" false true [.file "a.txt"]),
          (["b"], .file "a.txt")] := by
      simp [scenarioTree, visitedIn, visited, descends, Node.entry, isHidden]
    rw [hv] at h
    simpa [List.filterMap_cons, reportEntry, Node.entry, hca, hcb, descends] using h
  · exact run_returns rfl rfl hreg (by rw [fullEvents_blocked]; rfl)

/-- An instance of C7 (amended), with the example library. -/
theorem scenario2_spec_witness :
    (run scenarioCtx 20 (init scenario2)).out.Perm
      [⟨[], ⟨"a.txt", false⟩, .FgGreen⟩, ⟨["b"], ⟨"a.txt", false⟩, .FgGreen⟩] :=
  (scenario2_spec sampleEngine (fun s => sampleMatchHere [some 'a', some '.'] s.data) rfl
    (by decide) (by decide)).1 (run scenarioCtx 20 (init scenario2))
    (run_reachable 20 _ Relation.ReflTransGen.refl) rfl

/-- C7, the nested file is reported: the run of scenario 2 with the example
library reports `b/a.txt` as well as `a.txt`. -/
theorem scenario2_reports_nested :
    (run scenarioCtx 20 (init scenario2)).main = .returned ∧
      (run scenarioCtx 20 (init scenario2)).out =
        [⟨[], ⟨"a.txt", false⟩, .FgGreen⟩, ⟨["b"], ⟨"a.txt", false⟩, .FgGreen⟩] :=
  ⟨rfl, by decide⟩

/-- C6, a hidden directory that is reported: with `b` hidden and the pattern
`b`, the walk reports the directory `b`, with the colour of a file, and does not
come to `b/a.txt`. -/
theorem hidden_dir_reported :
    (run hiddenCtx 20 (init scenario4)).main = .returned ∧
      (run hiddenCtx 20 (init scenario4)).f.nbFiles = 2 ∧
      (run hiddenCtx 20 (init scenario4)).out = [⟨[], ⟨"b", true⟩, .FgGreen⟩] :=
  ⟨rfl, by decide, by decide⟩

/-- The loop of `worker` reports a hidden directory for which `correspond`
returns true, with the colour of a file, and starts no goroutine on it. -/
theorem workerStep_hidden (c : Ctx) (dirPath : List String) (node : Node) (rest : List Node)
    (s : State) (hh : isHidden node = true)
    (hc : correspond c.re s.f node.entry = .ok true) :
    (workerStep c ⟨dirPath, .loop (node :: rest)⟩ s).2.out =
        s.out ++ [⟨dirPath, node.entry, .FgGreen⟩] ∧
      (workerStep c ⟨dirPath, .loop (node :: rest)⟩ s).2.tasks = s.tasks := by
  simp [workerStep, hc, hh, printPath, addNbFiles]

end Finder
